import Mathlib

/-!
Verification of the dfcached repository: a persistent on-disk memoization
layer for Python functions returning DataFrames, tuples, lists, dicts or
arbitrary objects.

Shallow embedding conventions.

Source files embedded: src/dfcached/_io.py (container codec with integrity
stamps), src/dfcached/_key.py (fingerprint derivation), src/dfcached/cache.py
(lock protocol and facade structure).  The module src/dfcached/_integrity.py
(sha256_file) is not present under src/; it is modelled from the spec, as is
the integrity-threading of the facade (the facade in src/dfcached/cache.py
predates the integrity options that the tests and the spec describe).

Host-language values are modelled by the inductive type Obj; DataFrames by
the opaque record Df whose parquetable flag records whether the columnar
codec accepts it (df.to_parquet succeeding or raising).  Serialized file
contents are modelled by Blob, which keeps the serialized object symbolic:
pickle.dumps is injective on the values it accepts, so Blob.pickled o stands
for the pickle byte string of o, and pickle.loads recovers exactly o from
it.  Byte strings for hashing are List Nat.  Leaf files are named
f"{label}.{ext}" in the source; a name is modelled as the pair
(label, ext), which is in bijection with those strings.
-/

/-- Byte strings, modelled as lists of naturals. -/
abbrev Bytes := List Nat

/-- A pandas DataFrame, opaquely: its column data plus whether the columnar
    (parquet) codec accepts it, i.e. whether df.to_parquet succeeds. -/
structure Df where
  cols : List (String × List Int)
  parquetable : Bool
deriving DecidableEq

/-- A Python value: the shapes the codec dispatches on (DataFrame, tuple,
    list, dict) plus representative picklable scalars. -/
inductive Obj where
  | pyNone : Obj
  | pyBool (b : Bool) : Obj
  | pyInt (n : Int) : Obj
  | pyStr (s : String) : Obj
  | df (d : Df) : Obj
  | tupv (xs : List Obj) : Obj
  | listv (xs : List Obj) : Obj
  | dictv (kvs : List (Obj × Obj)) : Obj

/-- Serialized byte form of a DataFrame (used only for hashing). -/
def encDf (d : Df) : Bytes :=
  (d.cols.map (fun c => (c.1.data.map Char.toNat) ++ c.2.map Int.natAbs)).flatten

mutual

/-- Serialized byte form of a Python object (used only for hashing). -/
def encObj : Obj → Bytes
  | .pyNone => [0]
  | .pyBool b => [1, cond b 1 0]
  | .pyInt n => [2, cond (0 ≤ n) 1 0, n.natAbs]
  | .pyStr s => 3 :: s.length :: s.data.map Char.toNat
  | .df d => 4 :: encDf d
  | .tupv xs => 5 :: xs.length :: encObjList xs
  | .listv xs => 6 :: xs.length :: encObjList xs
  | .dictv kvs => 7 :: kvs.length :: encObjPairs kvs

def encObjList : List Obj → Bytes
  | [] => []
  | o :: os => encObj o ++ encObjList os

def encObjPairs : List (Obj × Obj) → Bytes
  | [] => []
  | kv :: rest => encObj kv.1 ++ encObj kv.2 ++ encObjPairs rest

end

/-- The 256-bit digest space. -/
def DIGESTMOD : Nat := 2 ^ 256

/-- Modelled from the spec: src/dfcached/_integrity.py is missing from src/;
    its sha256_file streams file contents through a 256-bit cryptographic
    hash.  The compression is modelled by a computable 256-bit fold (not the
    real SHA-256 round function). -/
def hashBytes (bs : Bytes) : Nat :=
  bs.foldl (fun a b => (a * 1000003 + b + 7) % DIGESTMOD) 5381

/-- The sixteen lowercase hex digit characters. -/
def hexChars : List Char := "0123456789abcdef".data

/-- The hex digit character for a value below 16. -/
def hexDigitChar (k : Nat) : Char := hexChars.getD k '0'

/-- Render a 256-bit value as exactly 64 lowercase hex characters
    (hashlib hexdigest output format). -/
def toHex64 (n : Nat) : String :=
  String.mk ((List.range 64).map (fun i => hexDigitChar (n / 16 ^ (63 - i) % 16)))

/-- hashlib sha256 hexdigest over a byte string, in the model hash. -/
def sha256hex (bs : Bytes) : String := toHex64 (hashBytes bs)

/-- Contents of one stored file: a pickle byte string of an object, a
    parquet rendering of a DataFrame, or arbitrary (e.g. corrupted) bytes. -/
inductive Blob where
  | pickled (o : Obj)
  | parquet (d : Df)
  | raw (bs : Bytes)

/-- The byte string a Blob stands for (only its hash and length are ever
    inspected; decoding goes through the symbolic constructors). -/
def blobBytes : Blob → Bytes
  | .pickled o => 0 :: encObj o
  | .parquet d => 1 :: encDf d
  | .raw bs => 2 :: bs

/-- Modelled from the spec: sha256_file(path) returns the streamed 256-bit
    digest of the file contents together with its byte length. -/
def sha256_file (b : Blob) : String × Nat :=
  (sha256hex (blobBytes b), (blobBytes b).length)

/-- The on-disk name of a leaf file: the source writes f"{label}.{ext}";
    the pair (label, ext) models that string. -/
structure FileKey where
  label : Nat
  ext : String
deriving DecidableEq

/-- The string form of a leaf file name. -/
def fileName (k : FileKey) : String := toString k.label ++ "." ++ k.ext

/-- One leaf descriptor of the manifest: kind ("parquet" or "pickle"),
    file name, and the optional integrity stamp. -/
structure LeafDesc where
  kind : String
  file : FileKey
  sha256 : Option String := none
  size : Option Nat := none

/-- One manifest item: a bare leaf descriptor, or (for dict containers) a
    descriptor paired with the base64-encoded pickle of the original key.
    The encoded key is kept symbolic as the key object itself, since
    b64(pickle.dumps k) is injective and pickle.loads(b64d s) inverts it. -/
inductive Item where
  | plain (e : LeafDesc) : Item
  | keyed (key_b64 : Obj) (entry : LeafDesc) : Item

/-- The manifest document: container kind and the item list. -/
structure Manifest where
  container : String
  items : List Item

/-- The contents of one cache entry directory.  files is the write log of
    leaf files (most recent write first; lookups take the first match, so a
    later write to the same name wins, as on a real file system).  manifest
    is the atomically published manifest.json (None while absent), and lock
    records whether the lock file exists. -/
structure FS where
  files : List (FileKey × Blob) := []
  manifest : Option Manifest := none
  lock : Bool := false

/-- Read a file from the write log: first match wins. -/
def lookupFile : List (FileKey × Blob) → FileKey → Option Blob
  | [], _ => none
  | (k, b) :: rest, key => if key = k then some b else lookupFile rest key

/-- Attach the integrity stamp to a leaf descriptor when write_checksums is
    on: the code calls sha256_file on the file it has just written. -/
def stampNode (node : LeafDesc) (b : Blob) (write_checksums : Bool) : LeafDesc :=
  if write_checksums then
    { node with sha256 := some (sha256_file b).1, size := some (sha256_file b).2 }
  else node

/-- _io.save_df: try the parquet codec, falling back to pickle if it rejects
    the DataFrame; stamp the written file when write_checksums is on. -/
def save_df (files : List (FileKey × Blob)) (label : Nat) (d : Df)
    (write_checksums : Bool) : List (FileKey × Blob) × LeafDesc :=
  if d.parquetable then
    let p : FileKey := ⟨label, "parquet"⟩
    ((p, .parquet d) :: files, stampNode { kind := "parquet", file := p } (.parquet d) write_checksums)
  else
    let p : FileKey := ⟨label, "pkl"⟩
    ((p, .pickled (.df d)) :: files,
      stampNode { kind := "pickle", file := p } (.pickled (.df d)) write_checksums)

/-- One element of a tuple/list/dict body: a DataFrame goes through save_df,
    anything else is pickled to f"{i}.pkl" (loop body of _io.save_result). -/
def saveElem (files : List (FileKey × Blob)) (i : Nat) (v : Obj)
    (write_checksums : Bool) : List (FileKey × Blob) × LeafDesc :=
  match v with
  | .df d => save_df files i d write_checksums
  | v =>
    let p : FileKey := ⟨i, "pkl"⟩
    ((p, .pickled v) :: files, stampNode { kind := "pickle", file := p } (.pickled v) write_checksums)

/-- The enumerate loop of _io.save_result over tuple/list elements. -/
def saveElems (files : List (FileKey × Blob)) (i : Nat) (write_checksums : Bool) :
    List Obj → List (FileKey × Blob) × List LeafDesc
  | [] => (files, [])
  | v :: vs =>
    let r1 := saveElem files i v write_checksums
    let r2 := saveElems r1.1 (i + 1) write_checksums vs
    (r2.1, r1.2 :: r2.2)

/-- The enumerate loop of _io.save_result over dict items: each item stores
    the pickled-and-encoded original key next to its leaf descriptor. -/
def saveKvs (files : List (FileKey × Blob)) (i : Nat) (write_checksums : Bool) :
    List (Obj × Obj) → List (FileKey × Blob) × List Item
  | [] => (files, [])
  | kv :: rest =>
    let r1 := saveElem files i kv.2 write_checksums
    let r2 := saveKvs r1.1 (i + 1) write_checksums rest
    (r2.1, .keyed kv.1 r1.2 :: r2.2)

/-- _io.save_result: dispatch on the runtime shape of the result and write
    the leaf files, returning the manifest document. -/
def save_result (files : List (FileKey × Blob)) (result : Obj)
    (write_checksums : Bool) : List (FileKey × Blob) × Manifest :=
  match result with
  | .df d =>
    let r := save_df files 0 d write_checksums
    (r.1, ⟨"df", [.plain r.2]⟩)
  | .tupv xs =>
    let r := saveElems files 0 write_checksums xs
    (r.1, ⟨"tuple", r.2.map .plain⟩)
  | .listv xs =>
    let r := saveElems files 0 write_checksums xs
    (r.1, ⟨"list", r.2.map .plain⟩)
  | .dictv kvs =>
    let r := saveKvs files 0 write_checksums kvs
    (r.1, ⟨"dict", r.2⟩)
  | other =>
    let p : FileKey := ⟨0, "pkl"⟩
    ((p, .pickled other) :: files,
      ⟨"other", [.plain (stampNode { kind := "pickle", file := p } (.pickled other) write_checksums)]⟩)

/-- Errors while decoding a cache entry: a strict-integrity mismatch (the
    ValueError with the remediation message) or any other decode failure
    (missing file, unparseable contents, malformed manifest, unknown
    container kind). -/
inductive LoadErr where
  | integrity (msg : String) : LoadErr
  | decode (msg : String) : LoadErr

/-- Python bool rendering, as an f-string interpolates it. -/
def pyBoolStr (b : Bool) : String := cond b "True" "False"

/-- The integrity failure message of _io.load_leaf, verbatim. -/
def integrityMsg (base : String) (path : String) (kind : String) (expSha : String)
    (expSz : Nat) (gotSha : String) (gotSz : Nat) (strict_integrity : Bool) : String :=
  "Cache integrity check failed\n" ++
  "  file: " ++ path ++ "\n" ++
  "  kind: " ++ kind ++ "\n" ++
  "  expected: sha256=" ++ expSha ++ " size=" ++ toString expSz ++ "\n" ++
  "  got:      sha256=" ++ gotSha ++ " size=" ++ toString gotSz ++ "\n" ++
  "strict_integrity=" ++ pyBoolStr strict_integrity ++ ": refusing to load cached result.\n" ++
  "Fix one of the following:\n" ++
  "  1) Delete the corrupted file or its parent cache key directory and retry.\n" ++
  "  2) Re-run with strict_integrity=False to recompute and overwrite.\n" ++
  "  3) If you intentionally modified the file, update the stored checksum in:\n" ++
  "       " ++ base ++ "/manifest.json\n"

/-- Dispatch of _io.load_leaf on the recorded kind: "parquet" goes through
    pd.read_parquet, any other kind through pickle.load; contents of the
    wrong shape make the reader raise, modelled as a decode error. -/
def readBlob (kind : String) (blob : Blob) (path : String) : Except LoadErr Obj :=
  if kind = "parquet" then
    match blob with
    | .parquet d => .ok (.df d)
    | _ => .error (.decode ("cannot read parquet file: " ++ path))
  else
    match blob with
    | .pickled o => .ok o
    | _ => .error (.decode ("cannot unpickle file: " ++ path))

/-- _io.load_leaf: read one leaf file, first re-checking the integrity stamp
    when verification is enabled and the descriptor carries one.  A missing
    file makes either the hashing or the read raise, modelled as a decode
    error.  The recorded size defaults to the actual size when absent
    (entry.get with default), so a missing size never mismatches. -/
def load_leaf (files : List (FileKey × Blob)) (base : String) (entry : LeafDesc)
    (verify_checksums : Bool) (strict_integrity : Bool) : Except LoadErr Obj :=
  let path := base ++ "/" ++ fileName entry.file
  match lookupFile files entry.file with
  | none => .error (.decode ("missing leaf file: " ++ path))
  | some blob =>
    match entry.sha256 with
    | some expSha =>
      if verify_checksums then
        let sha := (sha256_file blob).1
        let size := (sha256_file blob).2
        let expSz := entry.size.getD size
        if sha ≠ expSha ∨ size ≠ expSz then
          .error (.integrity (integrityMsg base path entry.kind expSha expSz sha size strict_integrity))
        else readBlob entry.kind blob path
      else readBlob entry.kind blob path
    | none => readBlob entry.kind blob path

/-- The tuple/list comprehension of _io.load_result: load every item as a
    bare leaf descriptor; a dict-shaped item makes the subscript access
    raise, modelled as a decode error. -/
def loadElems (files : List (FileKey × Blob)) (base : String)
    (verify_checksums strict_integrity : Bool) : List Item → Except LoadErr (List Obj)
  | [] => .ok []
  | .plain e :: rest => do
    let v ← load_leaf files base e verify_checksums strict_integrity
    let vs ← loadElems files base verify_checksums strict_integrity rest
    .ok (v :: vs)
  | .keyed _ _ :: _ => .error (.decode "malformed manifest item")

/-- The dict loop of _io.load_result: decode each stored key with
    pickle.loads(b64d(key_b64)) and load its leaf.  Inserting into the dict
    in item order with the distinct keys a genuine dict produced rebuilds
    the original key-value list. -/
def loadKvs (files : List (FileKey × Blob)) (base : String)
    (verify_checksums strict_integrity : Bool) : List Item → Except LoadErr (List (Obj × Obj))
  | [] => .ok []
  | .keyed k e :: rest => do
    let v ← load_leaf files base e verify_checksums strict_integrity
    let kvs ← loadKvs files base verify_checksums strict_integrity rest
    .ok ((k, v) :: kvs)
  | .plain _ :: _ => .error (.decode "malformed manifest item")

/-- _io.load_result: rebuild the container shape declared by the manifest;
    a container kind the codec does not recognize raises
    ValueError("unknown container"). -/
def load_result (files : List (FileKey × Blob)) (base : String) (meta : Manifest)
    (verify_checksums strict_integrity : Bool) : Except LoadErr Obj :=
  if meta.container = "df" then
    match meta.items.head? with
    | some (.plain e) => load_leaf files base e verify_checksums strict_integrity
    | some (.keyed _ _) => .error (.decode "malformed manifest item")
    | none => .error (.decode "empty manifest items")
  else if meta.container = "tuple" then
    (loadElems files base verify_checksums strict_integrity meta.items).map Obj.tupv
  else if meta.container = "list" then
    (loadElems files base verify_checksums strict_integrity meta.items).map Obj.listv
  else if meta.container = "dict" then
    (loadKvs files base verify_checksums strict_integrity meta.items).map Obj.dictv
  else if meta.container = "other" then
    match meta.items.head? with
    | some (.plain e) => load_leaf files base e verify_checksums strict_integrity
    | some (.keyed _ _) => .error (.decode "malformed manifest item")
    | none => .error (.decode "empty manifest items")
  else .error (.decode "unknown container")

/-- An argument value for fingerprinting: an ordinary picklable value, or an
    exotic object that pickle.dumps raises on, carrying its textual (repr)
    rendering for the fallback path. -/
inductive Arg where
  | val (o : Obj) : Arg
  | exotic (id : Nat) (txt : String) : Arg

/-- Byte form of a string (utf-8 in the source). -/
def strBytes (s : String) : Bytes := s.data.map Char.toNat

/-- Length-prefixed byte form of a string inside a payload serialization. -/
def encStr (s : String) : Bytes := s.length :: s.data.map Char.toNat

/-- pickle.dumps of one argument: fails exactly on exotic objects. -/
def encArg : Arg → Option Bytes
  | .val o => some (0 :: encObj o)
  | .exotic _ _ => none

/-- pickle.dumps over the positional argument tuple. -/
def encArgList : List Arg → Option Bytes
  | [] => some []
  | a :: rest => do
    let b ← encArg a
    let bs ← encArgList rest
    some (b ++ bs)

/-- pickle.dumps over the keyword items (name paired with value). -/
def encKwList : List (String × Arg) → Option Bytes
  | [] => some []
  | kv :: rest => do
    let b ← encArg kv.2
    let bs ← encKwList rest
    some (encStr kv.1 ++ b ++ bs)

/-- pickle.dumps(payload, protocol=5) for payload = (args, keyword items):
    fails iff any argument is unpicklable. -/
def encPayload (args : List Arg) (kw : List (String × Arg)) : Option Bytes := do
  let ab ← encArgList args
  let kb ← encKwList kw
  some (10 :: args.length :: ab ++ 11 :: kw.length :: kb)

mutual

/-- Textual (repr) rendering of an object, for the fallback path. -/
def reprObj : Obj → String
  | .pyNone => "None"
  | .pyBool b => pyBoolStr b
  | .pyInt n => toString n
  | .pyStr s => "str:" ++ s
  | .df d => "DataFrame:" ++ toString d.cols.length
  | .tupv xs => "(" ++ reprObjList xs ++ ")"
  | .listv xs => "[" ++ reprObjList xs ++ "]"
  | .dictv kvs => "dict(" ++ reprObjPairs kvs ++ ")"

def reprObjList : List Obj → String
  | [] => ""
  | o :: os => reprObj o ++ ", " ++ reprObjList os

def reprObjPairs : List (Obj × Obj) → String
  | [] => ""
  | kv :: rest => reprObj kv.1 ++ ": " ++ reprObj kv.2 ++ ", " ++ reprObjPairs rest

end

/-- repr of one argument. -/
def reprOfArg : Arg → String
  | .val o => reprObj o
  | .exotic id txt => txt ++ "#" ++ toString id

/-- repr over a list of arguments. -/
def reprOfArgList : List Arg → String
  | [] => ""
  | a :: rest => reprOfArg a ++ ", " ++ reprOfArgList rest

/-- repr over keyword items. -/
def reprKwList : List (String × Arg) → String
  | [] => ""
  | kv :: rest => kv.1 ++ "=" ++ reprOfArg kv.2 ++ ", " ++ reprKwList rest

/-- repr(payload) for the textual fallback of _key.make_key. -/
def reprPayload (args : List Arg) (kw : List (String × Arg)) : String :=
  "((" ++ reprOfArgList args ++ "), (" ++ reprKwList kw ++ "))"

/-- _key.make_key (identical to cache._key): filter excluded keyword names,
    optionally sort the remaining keyword items by name, then hash the
    function identity, the optional version tag, and the serialized payload,
    falling back to the textual rendering when pickle raises.  Keyword
    argument lists model Python dicts, so their names are distinct and in
    insertion order; an empty exclusion list models both None and an empty
    iterable (both falsy).  Python sorted() with a key comparing only the
    name agrees with any sort by name on distinct names. -/
def make_key (func_name : String) (args : List Arg) (kwargs : List (String × Arg))
    (version : Option String) (exclude : List String)
    (canonicalize_kwargs : Bool) : String :=
  let kwargs := if exclude.isEmpty then kwargs
    else kwargs.filter (fun kv => !(exclude.contains kv.1))
  let payloadKw := if canonicalize_kwargs then
    List.insertionSort (fun a b => a.1 ≤ b.1) kwargs else kwargs
  let verBytes := match version with
    | some ver => if ver = "" then [] else strBytes ("|ver:" ++ ver)
    | none => []
  let buf := match encPayload args payloadKw with
    | some b => b
    | none => strBytes (reprPayload args payloadKw)
  sha256hex (strBytes func_name ++ verBytes ++ buf)

/-- The configuration surface of persist_cache that the embedded claims
    exercise.  write_checksums defaults to true, strict_integrity to true
    and verify_checksums to false-unless-strict, hence true. -/
structure Config where
  refresh : Bool := false
  write_checksums : Bool := true
  verify_checksums : Bool := true
  strict_integrity : Bool := true
  basePath : String := "cache/f/key"

/-- Errors the facade surfaces to the caller: a strict-mode integrity
    failure, a lock timeout, or an exception of the wrapped computation. -/
inductive Err where
  | integrity (msg : String) : Err
  | lockTimeout : Err
  | user (e : String) : Err

/-- The probe step of the facade (the manifest-exists fast path of
    cache.persist_cache, run both before and after lock acquisition).
    Modelled from the spec for the missing integrity-aware facade: a decode
    failure is swallowed and treated as a miss (none), except that a
    strict-mode integrity failure propagates; the facade does not
    auto-recompute in that case. -/
def probe (cfg : Config) (fs : FS) : Option (Except Err Obj) :=
  if cfg.refresh then none
  else match fs.manifest with
  | none => none
  | some m =>
    match load_result fs.files cfg.basePath m cfg.verify_checksums cfg.strict_integrity with
    | .ok r => some (.ok r)
    | .error (.integrity msg) =>
      if cfg.strict_integrity then some (.error (.integrity msg)) else none
    | .error (.decode _) => none

/-- The wrapper of cache.persist_cache, acting on one cache entry directory
    (the entry for the derived key): probe, acquire the exclusive lock (a
    held lock in this sequential model means the poll loop times out),
    double-check, run the computation, write the leaf files, atomically
    publish the manifest, and release the lock on every exit path (the
    with-statement over _DirLock).  The wrapped computation is passed as its
    outcome: a value or a raised exception.  Integrity threading is
    modelled from the spec (see probe). -/
def wrapper (cfg : Config) (func : Except String Obj) (fs : FS) : Except Err Obj × FS :=
  match probe cfg fs with
  | some (.ok r) => (.ok r, fs)
  | some (.error e) => (.error e, fs)
  | none =>
    if fs.lock then (.error .lockTimeout, fs)
    else
      let fs1 : FS := { fs with lock := true }
      match probe cfg fs1 with
      | some (.ok r) => (.ok r, { fs1 with lock := false })
      | some (.error e) => (.error e, { fs1 with lock := false })
      | none =>
        match func with
        | .error e => (.error (.user e), { fs1 with lock := false })
        | .ok r =>
          let sv := save_result fs1.files r cfg.write_checksums
          (.ok r, { files := sv.1, manifest := some sv.2, lock := false })

/-- The leaf descriptor an item carries. -/
def descOf : Item → LeafDesc
  | .plain e => e
  | .keyed _ e => e

/-- All leaf descriptors a manifest references (every item of every
    container shape carries exactly one). -/
def manifestDescs (m : Manifest) : List LeafDesc :=
  m.items.map descOf

/-- A substring assertion: t occurs inside s. -/
def strContains (s t : String) : Prop := ∃ l r, s = l ++ t ++ r

/-- The default configuration of persist_cache for a given entry path:
    refresh off, checksums written, verification on, strict integrity. -/
def defaultCfg (base : String) : Config := { basePath := base }

/-! ### Decomposition of save_result into its file writes and its manifest -/

/-- The file write one element save performs. -/
def elemWrite (i : Nat) (v : Obj) : FileKey × Blob :=
  match v with
  | .df d => if d.parquetable then (⟨i, "parquet"⟩, .parquet d) else (⟨i, "pkl"⟩, .pickled (.df d))
  | v => (⟨i, "pkl"⟩, .pickled v)

/-- The kind recorded for one element save. -/
def elemKind (v : Obj) : String :=
  match v with
  | .df d => if d.parquetable then "parquet" else "pickle"
  | _ => "pickle"

/-- The leaf descriptor one element save produces. -/
def elemDesc (i : Nat) (v : Obj) (wc : Bool) : LeafDesc :=
  stampNode { kind := elemKind v, file := (elemWrite i v).1 } (elemWrite i v).2 wc

/-- The chronological file writes of the element loop, from index i. -/
def elemWrites (i : Nat) : List Obj → List (FileKey × Blob)
  | [] => []
  | v :: vs => elemWrite i v :: elemWrites (i + 1) vs

/-- The leaf descriptors of the element loop, from index i. -/
def elemDescs (i : Nat) (wc : Bool) : List Obj → List LeafDesc
  | [] => []
  | v :: vs => elemDesc i v wc :: elemDescs (i + 1) wc vs

/-- The chronological file writes of the dict loop, from index i. -/
def kvWrites (i : Nat) : List (Obj × Obj) → List (FileKey × Blob)
  | [] => []
  | kv :: rest => elemWrite i kv.2 :: kvWrites (i + 1) rest

/-- The manifest items of the dict loop, from index i. -/
def kvItems (i : Nat) (wc : Bool) : List (Obj × Obj) → List Item
  | [] => []
  | kv :: rest => .keyed kv.1 (elemDesc i kv.2 wc) :: kvItems (i + 1) wc rest

/-- The chronological file writes of one commit. -/
def resultWrites (v : Obj) : List (FileKey × Blob) :=
  match v with
  | .tupv xs => elemWrites 0 xs
  | .listv xs => elemWrites 0 xs
  | .dictv kvs => kvWrites 0 kvs
  | v => [elemWrite 0 v]

/-- The manifest one commit publishes. -/
def manifestOf (v : Obj) (wc : Bool) : Manifest :=
  match v with
  | .df d => ⟨"df", [.plain (elemDesc 0 (.df d) wc)]⟩
  | .tupv xs => ⟨"tuple", (elemDescs 0 wc xs).map .plain⟩
  | .listv xs => ⟨"list", (elemDescs 0 wc xs).map .plain⟩
  | .dictv kvs => ⟨"dict", kvItems 0 wc kvs⟩
  | v => ⟨"other", [.plain (elemDesc 0 v wc)]⟩

/-- A dict value faithfully models a Python dict only when its keys are
    distinct (a dict type guarantees this); other shapes carry no
    constraint. -/
def dictKeysNodup : Obj → Prop
  | .dictv kvs => (kvs.map Prod.fst).Nodup
  | _ => True

/-! ### Concurrent model of the commit protocol

N processes run the wrapper concurrently for the same fingerprint, so they
share one entry directory.  Each process is at a control point of the
wrapper body; shared state is the entry directory (FS) plus two ghost
fields: the identity of the lock holder and the number of executions of the
wrapped computation.  One leaf-file write is one atomic step; the manifest
publication (write-temp, flush, fsync, atomic rename of
cache._atomic_write_text) is a single atomic step, which is exactly the
atomicity the rename provides; the probe, the lock acquisition
(os.open O_CREAT|O_EXCL) and the lock release are likewise atomic.  A
process whose acquisition attempt finds the lock held simply does not
advance (the poll loop of _DirLock.__enter__); timeouts are not modelled,
so a trace in which every process reaches done never timed out. -/

/-- Control point of one process inside the wrapper body. -/
inductive PC where
  | start : PC
  | acquiring : PC
  | checking : PC
  | writing (pending : List (FileKey × Blob)) (m : Manifest) : PC
  | releasingHit (r : Obj) : PC
  | releasingCommit (r : Obj) : PC
  | done (r : Obj) : PC
  | failed : PC

/-- Configuration of the concurrent system: the shared entry directory,
    the ghost lock owner and execution count, and every process's control
    point. -/
structure MConf where
  fs : FS
  owner : Option Nat
  computeCount : Nat
  procs : List PC

/-- One atomic step of process i.  The wrapped computation is deterministic
    with value v (the functions the cache wraps are assumed side-effect
    free and deterministic); the step from checking on a double-check miss
    executes it, so it bumps the ghost execution count. -/
def cstep (cfg : Config) (v : Obj) (c : MConf) (i : Nat) : MConf :=
  match c.procs[i]? with
  | none => c
  | some pc =>
    match pc with
    | .start =>
      match probe cfg c.fs with
      | some (.ok r) => { c with procs := c.procs.set i (.done r) }
      | some (.error _) => { c with procs := c.procs.set i .failed }
      | none => { c with procs := c.procs.set i .acquiring }
    | .acquiring =>
      if c.fs.lock then c
      else { c with fs := { c.fs with lock := true }, owner := some i,
                    procs := c.procs.set i .checking }
    | .checking =>
      match probe cfg c.fs with
      | some (.ok r) => { c with procs := c.procs.set i (.releasingHit r) }
      | some (.error _) =>
        { c with fs := { c.fs with lock := false }, owner := none,
                 procs := c.procs.set i .failed }
      | none =>
        { c with computeCount := c.computeCount + 1,
                 procs := c.procs.set i
                   (.writing (resultWrites v) (manifestOf v cfg.write_checksums)) }
    | .writing [] m =>
      { c with fs := { c.fs with manifest := some m },
               procs := c.procs.set i (.releasingCommit v) }
    | .writing (w :: pend) m =>
      { c with fs := { c.fs with files := w :: c.fs.files },
               procs := c.procs.set i (.writing pend m) }
    | .releasingHit r =>
      { c with fs := { c.fs with lock := false }, owner := none,
               procs := c.procs.set i (.done r) }
    | .releasingCommit r =>
      { c with fs := { c.fs with lock := false }, owner := none,
               procs := c.procs.set i (.done r) }
    | .done _ => c
    | .failed => c

/-- Run a schedule: the list of process identities taking successive
    steps. -/
def runMC (cfg : Config) (v : Obj) (c : MConf) : List Nat → MConf
  | [] => c
  | i :: rest => runMC cfg v (cstep cfg v c i) rest

/-- Initial configuration: empty entry directory, no lock, n processes at
    the head of the wrapper. -/
def initMC (n : Nat) : MConf :=
  { fs := {}, owner := none, computeCount := 0, procs := List.replicate n .start }

/-- Control points that hold the entry lock. -/
def holdsLock : PC → Prop
  | .checking | .writing _ _ | .releasingHit _ | .releasingCommit _ => True
  | _ => False

/-- Control points a process reaches only after executing the wrapped
    computation in the current run. -/
def postCompute : PC → Prop
  | .writing _ _ | .releasingCommit _ => True
  | _ => False

/-- Control points a process reaches only once a manifest is published. -/
def manifestSeen : PC → Prop
  | .done _ | .releasingHit _ | .releasingCommit _ => True
  | _ => False

/-- Any result a process carries equals the computed value. -/
def pcResultOk (v : Obj) : PC → Prop
  | .done r | .releasingHit r | .releasingCommit r => r = v
  | _ => True

/-- The inductive invariant of the concurrent commit protocol. -/
structure MInv (cfg : Config) (v : Obj) (c : MConf) : Prop where
  hlock : c.fs.lock = c.owner.isSome
  howner : ∀ (i : Nat) (pc : PC), c.procs[i]? = some pc → holdsLock pc → c.owner = some i
  hman : ∀ m, c.fs.manifest = some m →
    m = manifestOf v cfg.write_checksums ∧ c.fs.files = (resultWrites v).reverse
  hwrite : ∀ (i : Nat) (pend : List (FileKey × Blob)) (m : Manifest),
    c.procs[i]? = some (.writing pend m) →
    c.fs.manifest = none ∧ m = manifestOf v cfg.write_checksums ∧
    ∃ k, pend = (resultWrites v).drop k ∧ c.fs.files = ((resultWrites v).take k).reverse
  hcount1 : c.computeCount ≤ 1
  hcount0 : c.computeCount = 0 ↔
    (c.fs.manifest = none ∧ ∀ (i : Nat) (pc : PC), c.procs[i]? = some pc → ¬ postCompute pc)
  hseen : ∀ (i : Nat) (pc : PC), c.procs[i]? = some pc → manifestSeen pc → c.fs.manifest.isSome
  hres : ∀ (i : Nat) (pc : PC), c.procs[i]? = some pc → pcResultOk v pc
  hempty : c.fs.manifest = none →
    (∀ (j : Nat) (pend : List (FileKey × Blob)) (m : Manifest),
      c.procs[j]? ≠ some (.writing pend m)) → c.fs.files = []

theorem stampNode_file (n : LeafDesc) (b : Blob) (wc : Bool) :
    (stampNode n b wc).file = n.file := by
  unfold stampNode; split <;> rfl

theorem stampNode_kind (n : LeafDesc) (b : Blob) (wc : Bool) :
    (stampNode n b wc).kind = n.kind := by
  unfold stampNode; split <;> rfl

theorem saveElem_eq (files : List (FileKey × Blob)) (i : Nat) (v : Obj) (wc : Bool) :
    saveElem files i v wc = (elemWrite i v :: files, elemDesc i v wc) := by
  cases v <;> simp only [saveElem, save_df, elemWrite, elemDesc, elemKind] <;>
    first
      | rfl
      | (split <;> rfl)

theorem saveElems_eq (wc : Bool) :
    ∀ (vs : List Obj) (files : List (FileKey × Blob)) (i : Nat),
    saveElems files i wc vs = ((elemWrites i vs).reverse ++ files, elemDescs i wc vs) := by
  intro vs
  induction vs with
  | nil => intro files i; simp [saveElems, elemWrites, elemDescs]
  | cons v vs ih =>
    intro files i
    simp [saveElems, saveElem_eq, ih, elemWrites, elemDescs, List.append_assoc]

theorem saveKvs_eq (wc : Bool) :
    ∀ (kvs : List (Obj × Obj)) (files : List (FileKey × Blob)) (i : Nat),
    saveKvs files i wc kvs = ((kvWrites i kvs).reverse ++ files, kvItems i wc kvs) := by
  intro kvs
  induction kvs with
  | nil => intro files i; simp [saveKvs, kvWrites, kvItems]
  | cons kv rest ih =>
    intro files i
    simp [saveKvs, saveElem_eq, ih, kvWrites, kvItems, List.append_assoc]

theorem save_result_eq (files : List (FileKey × Blob)) (v : Obj) (wc : Bool) :
    save_result files v wc = ((resultWrites v).reverse ++ files, manifestOf v wc) := by
  cases v <;>
    simp only [save_result, saveElems_eq, saveKvs_eq, resultWrites, manifestOf] <;>
    simp [saveElem_eq, elemWrite, elemDesc, elemKind, save_df] <;>
    (try split) <;> simp

/-! ### Round-trip of the container codec -/

theorem elemWrite_label (i : Nat) (v : Obj) : (elemWrite i v).1.label = i := by
  cases v <;> simp only [elemWrite] <;> (try split) <;> rfl

theorem elemWrites_label_ge :
    ∀ (vs : List Obj) (i : Nat) (w : FileKey × Blob), w ∈ elemWrites i vs → i ≤ w.1.label := by
  intro vs
  induction vs with
  | nil => intro i w h; simp [elemWrites] at h
  | cons v vs ih =>
    intro i w h
    simp only [elemWrites, List.mem_cons] at h
    rcases h with h | h
    · subst h; exact (elemWrite_label i v).ge
    · exact Nat.le_of_succ_le (ih (i + 1) w h)

theorem kvWrites_label_ge :
    ∀ (kvs : List (Obj × Obj)) (i : Nat) (w : FileKey × Blob),
    w ∈ kvWrites i kvs → i ≤ w.1.label := by
  intro kvs
  induction kvs with
  | nil => intro i w h; simp [kvWrites] at h
  | cons kv rest ih =>
    intro i w h
    simp only [kvWrites, List.mem_cons] at h
    rcases h with h | h
    · subst h; exact (elemWrite_label i kv.2).ge
    · exact Nat.le_of_succ_le (ih (i + 1) w h)

theorem lookupFile_skip (ws rest : List (FileKey × Blob)) (key : FileKey)
    (h : ∀ w ∈ ws, w.1 ≠ key) :
    lookupFile (ws ++ rest) key = lookupFile rest key := by
  induction ws with
  | nil => rfl
  | cons w ws ih =>
    have hw : w.1 ≠ key := h w (List.mem_cons_self w ws)
    simp only [List.cons_append, lookupFile]
    rw [if_neg (fun hk => hw hk.symm)]
    exact ih (fun u hu => h u (List.mem_cons_of_mem w hu))

theorem lookupFile_cons (w : FileKey × Blob) (rest : List (FileKey × Blob)) (key : FileKey) :
    lookupFile (w :: rest) key = if key = w.1 then some w.2 else lookupFile rest key := by
  obtain ⟨k, b⟩ := w; rfl

theorem readBlob_elem (i : Nat) (v : Obj) (path : String) :
    readBlob (elemKind v) (elemWrite i v).2 path = .ok v := by
  cases v with
  | df d => cases hd : d.parquetable <;> simp [readBlob, elemKind, elemWrite, hd]
  | _ => simp [readBlob, elemKind, elemWrite]

theorem load_leaf_elem (files : List (FileKey × Blob)) (base : String) (i : Nat) (v : Obj)
    (wc vc sc : Bool)
    (h : lookupFile files (elemWrite i v).1 = some (elemWrite i v).2) :
    load_leaf files base (elemDesc i v wc) vc sc = .ok v := by
  have hf : (elemDesc i v wc).file = (elemWrite i v).1 := stampNode_file _ _ _
  have hk : (elemDesc i v wc).kind = elemKind v := stampNode_kind _ _ _
  unfold load_leaf
  rw [hf, h]
  cases wc with
  | false =>
    have hs : (elemDesc i v false).sha256 = none := by simp [elemDesc, stampNode]
    rw [hs, hk]
    exact readBlob_elem i v _
  | true =>
    have hs : (elemDesc i v true).sha256 = some (sha256_file (elemWrite i v).2).1 := by
      simp [elemDesc, stampNode]
    have hz : (elemDesc i v true).size = some (sha256_file (elemWrite i v).2).2 := by
      simp [elemDesc, stampNode]
    rw [hs, hz]
    cases vc with
    | false =>
      simp only [if_neg, Bool.false_eq_true, if_false]
      rw [hk]; exact readBlob_elem i v _
    | true =>
      simp only [if_pos, Option.getD_some]
      rw [if_neg (by simp)]
      rw [hk]; exact readBlob_elem i v _

theorem fileKey_ne_of_label_ne (a b : FileKey) (h : a.label ≠ b.label) : a ≠ b := by
  intro hc; exact h (by rw [hc])

theorem loadElems_saved (base : String) (wc vc sc : Bool) :
    ∀ (vs : List Obj) (i : Nat) (files : List (FileKey × Blob)),
    loadElems ((elemWrites i vs).reverse ++ files) base vc sc
      ((elemDescs i wc vs).map Item.plain) = .ok vs := by
  intro vs
  induction vs with
  | nil => intro i files; simp [elemWrites, elemDescs, loadElems]
  | cons v vs ih =>
    intro i files
    have hsplit : (elemWrites i (v :: vs)).reverse ++ files =
        (elemWrites (i + 1) vs).reverse ++ (elemWrite i v :: files) := by
      simp [elemWrites, List.append_assoc]
    have hlook : lookupFile ((elemWrites i (v :: vs)).reverse ++ files) (elemWrite i v).1 =
        some (elemWrite i v).2 := by
      rw [hsplit]
      rw [lookupFile_skip _ _ _ (fun w hw => by
        have hmem : w ∈ elemWrites (i + 1) vs := List.mem_reverse.mp hw
        have := elemWrites_label_ge vs (i + 1) w hmem
        exact fileKey_ne_of_label_ne _ _ (by rw [elemWrite_label]; omega))]
      rw [lookupFile_cons]
      simp
    have hload := load_leaf_elem _ base i v wc vc sc hlook
    have htail : loadElems ((elemWrites i (v :: vs)).reverse ++ files) base vc sc
        ((elemDescs (i + 1) wc vs).map Item.plain) = .ok vs := by
      rw [hsplit]; exact ih (i + 1) (elemWrite i v :: files)
    simp [elemDescs, loadElems, hload, htail, Bind.bind, Except.bind]

theorem loadKvs_saved (base : String) (wc vc sc : Bool) :
    ∀ (kvs : List (Obj × Obj)) (i : Nat) (files : List (FileKey × Blob)),
    loadKvs ((kvWrites i kvs).reverse ++ files) base vc sc (kvItems i wc kvs) = .ok kvs := by
  intro kvs
  induction kvs with
  | nil => intro i files; simp [kvWrites, kvItems, loadKvs]
  | cons kv rest ih =>
    intro i files
    have hsplit : (kvWrites i (kv :: rest)).reverse ++ files =
        (kvWrites (i + 1) rest).reverse ++ (elemWrite i kv.2 :: files) := by
      simp [kvWrites, List.append_assoc]
    have hlook : lookupFile ((kvWrites i (kv :: rest)).reverse ++ files) (elemWrite i kv.2).1 =
        some (elemWrite i kv.2).2 := by
      rw [hsplit]
      rw [lookupFile_skip _ _ _ (fun w hw => by
        have hmem : w ∈ kvWrites (i + 1) rest := List.mem_reverse.mp hw
        have := kvWrites_label_ge rest (i + 1) w hmem
        exact fileKey_ne_of_label_ne _ _ (by rw [elemWrite_label]; omega))]
      rw [lookupFile_cons]
      simp
    have hload := load_leaf_elem _ base i kv.2 wc vc sc hlook
    have htail : loadKvs ((kvWrites i (kv :: rest)).reverse ++ files) base vc sc
        (kvItems (i + 1) wc rest) = .ok rest := by
      rw [hsplit]; exact ih (i + 1) (elemWrite i kv.2 :: files)
    simp [kvItems, loadKvs, hload, htail, Bind.bind, Except.bind]

theorem load_of_committed (v : Obj) (files : List (FileKey × Blob)) (base : String)
    (wc vc sc : Bool) :
    load_result ((resultWrites v).reverse ++ files) base (manifestOf v wc) vc sc = .ok v := by
  cases v with
  | df d =>
    have hlook : lookupFile ((resultWrites (.df d)).reverse ++ files)
        (elemWrite 0 (.df d)).1 = some (elemWrite 0 (.df d)).2 := by
      simp only [resultWrites, List.reverse_singleton, List.singleton_append]
      rw [lookupFile_cons]; simp
    have h := load_leaf_elem _ base 0 (.df d) wc vc sc hlook
    simp [load_result, manifestOf, h]
  | tupv xs =>
    have h := loadElems_saved base wc vc sc xs 0 files
    simp [load_result, manifestOf, resultWrites, h, Except.map]
  | listv xs =>
    have h := loadElems_saved base wc vc sc xs 0 files
    simp [load_result, manifestOf, resultWrites, h, Except.map]
  | dictv kvs =>
    have h := loadKvs_saved base wc vc sc kvs 0 files
    simp [load_result, manifestOf, resultWrites, h, Except.map]
  | pyNone =>
    have hlook : lookupFile ((resultWrites .pyNone).reverse ++ files)
        (elemWrite 0 .pyNone).1 = some (elemWrite 0 .pyNone).2 := by
      simp only [resultWrites, List.reverse_singleton, List.singleton_append]
      rw [lookupFile_cons]; simp
    have h := load_leaf_elem _ base 0 .pyNone wc vc sc hlook
    simp [load_result, manifestOf, h]
  | pyBool b =>
    have hlook : lookupFile ((resultWrites (.pyBool b)).reverse ++ files)
        (elemWrite 0 (.pyBool b)).1 = some (elemWrite 0 (.pyBool b)).2 := by
      simp only [resultWrites, List.reverse_singleton, List.singleton_append]
      rw [lookupFile_cons]; simp
    have h := load_leaf_elem _ base 0 (.pyBool b) wc vc sc hlook
    simp [load_result, manifestOf, h]
  | pyInt n =>
    have hlook : lookupFile ((resultWrites (.pyInt n)).reverse ++ files)
        (elemWrite 0 (.pyInt n)).1 = some (elemWrite 0 (.pyInt n)).2 := by
      simp only [resultWrites, List.reverse_singleton, List.singleton_append]
      rw [lookupFile_cons]; simp
    have h := load_leaf_elem _ base 0 (.pyInt n) wc vc sc hlook
    simp [load_result, manifestOf, h]
  | pyStr s =>
    have hlook : lookupFile ((resultWrites (.pyStr s)).reverse ++ files)
        (elemWrite 0 (.pyStr s)).1 = some (elemWrite 0 (.pyStr s)).2 := by
      simp only [resultWrites, List.reverse_singleton, List.singleton_append]
      rw [lookupFile_cons]; simp
    have h := load_leaf_elem _ base 0 (.pyStr s) wc vc sc hlook
    simp [load_result, manifestOf, h]

/-- C1: for every supported result shape (DataFrame, list, tuple, mapping
    with arbitrary keys, or any other single object), decoding the manifest
    and leaf files produced by encoding the value yields the original value,
    preserving the tuple-versus-list distinction and the exact mapping keys.
    The hypothesis restricts dict values to distinct keys, which every
    genuine Python dict has. -/
theorem claim_C1_roundtrip (v : Obj) (files : List (FileKey × Blob)) (base : String)
    (wc vc sc : Bool) (hkeys : dictKeysNodup v) :
    load_result (save_result files v wc).1 base (save_result files v wc).2 vc sc = .ok v := by
  rw [save_result_eq]
  exact load_of_committed v files base wc vc sc

/-- Witness for C1 at a concrete value exercising every shape: a dict with
    an integer and a string key, a DataFrame leaf, and nested tuple/list
    values. -/
theorem claim_C1_roundtrip_witness :
    dictKeysNodup (Obj.dictv [(Obj.pyInt 42, Obj.df ⟨[("x", [1, 2])], true⟩),
      (Obj.pyStr "a", Obj.tupv [Obj.pyStr "t", Obj.listv [Obj.pyInt 3]])]) ∧
    load_result
      (save_result [] (Obj.dictv [(Obj.pyInt 42, Obj.df ⟨[("x", [1, 2])], true⟩),
        (Obj.pyStr "a", Obj.tupv [Obj.pyStr "t", Obj.listv [Obj.pyInt 3]])]) true).1
      "root/f/k"
      (save_result [] (Obj.dictv [(Obj.pyInt 42, Obj.df ⟨[("x", [1, 2])], true⟩),
        (Obj.pyStr "a", Obj.tupv [Obj.pyStr "t", Obj.listv [Obj.pyInt 3]])]) true).2
      true true =
      .ok (Obj.dictv [(Obj.pyInt 42, Obj.df ⟨[("x", [1, 2])], true⟩),
        (Obj.pyStr "a", Obj.tupv [Obj.pyStr "t", Obj.listv [Obj.pyInt 3]])]) := by
  refine ⟨by simp [dictKeysNodup], ?_⟩
  exact claim_C1_roundtrip _ [] "root/f/k" true true true (by simp [dictKeysNodup])

theorem elemDesc_stamp_true (i : Nat) (v : Obj) :
    (elemDesc i v true).sha256.isSome ∧ (elemDesc i v true).size.isSome := by
  simp [elemDesc, stampNode]

theorem elemDesc_stamp_false (i : Nat) (v : Obj) :
    (elemDesc i v false).sha256 = none ∧ (elemDesc i v false).size = none := by
  simp [elemDesc, stampNode, elemKind]

theorem mem_elemDescs (wc : Bool) :
    ∀ (vs : List Obj) (i : Nat) (e : LeafDesc), e ∈ elemDescs i wc vs →
    ∃ j w, e = elemDesc j w wc := by
  intro vs
  induction vs with
  | nil => intro i e h; simp [elemDescs] at h
  | cons v vs ih =>
    intro i e h
    simp only [elemDescs, List.mem_cons] at h
    rcases h with h | h
    · exact ⟨i, v, h⟩
    · exact ih (i + 1) e h

theorem mem_kvDescs (wc : Bool) :
    ∀ (kvs : List (Obj × Obj)) (i : Nat) (e : LeafDesc),
    e ∈ manifestDescs ⟨"dict", kvItems i wc kvs⟩ →
    ∃ j w, e = elemDesc j w wc := by
  intro kvs
  induction kvs with
  | nil => intro i e h; simp [kvItems, manifestDescs] at h
  | cons kv rest ih =>
    intro i e h
    simp only [kvItems, manifestDescs, List.map_cons, List.mem_cons] at h
    rcases h with h | h
    · exact ⟨i, kv.2, by simpa [descOf] using h⟩
    · exact ih (i + 1) e (by simpa [manifestDescs] using h)

theorem mem_manifestDescs_elemDesc (v : Obj) (wc : Bool) (e : LeafDesc)
    (h : e ∈ manifestDescs (manifestOf v wc)) : ∃ j w, e = elemDesc j w wc := by
  cases v with
  | tupv xs =>
    simp only [manifestOf, manifestDescs, List.map_map] at h
    have : e ∈ elemDescs 0 wc xs := by simpa [descOf] using h
    exact mem_elemDescs wc xs 0 e this
  | listv xs =>
    simp only [manifestOf, manifestDescs, List.map_map] at h
    have : e ∈ elemDescs 0 wc xs := by simpa [descOf] using h
    exact mem_elemDescs wc xs 0 e this
  | dictv kvs => exact mem_kvDescs wc kvs 0 e h
  | df d =>
    simp only [manifestOf, manifestDescs, List.map_cons, List.map_nil,
      List.mem_singleton] at h
    exact ⟨0, .df d, h⟩
  | pyNone =>
    simp only [manifestOf, manifestDescs, List.map_cons, List.map_nil,
      List.mem_singleton] at h
    exact ⟨0, .pyNone, h⟩
  | pyBool b =>
    simp only [manifestOf, manifestDescs, List.map_cons, List.map_nil,
      List.mem_singleton] at h
    exact ⟨0, .pyBool b, h⟩
  | pyInt n =>
    simp only [manifestOf, manifestDescs, List.map_cons, List.map_nil,
      List.mem_singleton] at h
    exact ⟨0, .pyInt n, h⟩
  | pyStr s =>
    simp only [manifestOf, manifestDescs, List.map_cons, List.map_nil,
      List.mem_singleton] at h
    exact ⟨0, .pyStr s, h⟩

/-- C6: with write_checksums enabled (the default), every leaf descriptor
    in a committed manifest records a sha256 digest and a size; with
    write_checksums disabled, leaf descriptors carry no digest or size
    fields. -/
theorem claim_C6_checksum_stamps (files : List (FileKey × Blob)) (v : Obj) :
    (∀ e ∈ manifestDescs (save_result files v true).2,
      e.sha256.isSome ∧ e.size.isSome) ∧
    (∀ e ∈ manifestDescs (save_result files v false).2,
      e.sha256 = none ∧ e.size = none) := by
  rw [save_result_eq, save_result_eq]
  constructor
  · intro e he
    obtain ⟨j, w, rfl⟩ := mem_manifestDescs_elemDesc v true e he
    exact elemDesc_stamp_true j w
  · intro e he
    obtain ⟨j, w, rfl⟩ := mem_manifestDescs_elemDesc v false e he
    exact elemDesc_stamp_false j w

/-- Witness for C6 at a concrete two-leaf tuple result. -/
theorem claim_C6_checksum_stamps_witness :
    (∀ e ∈ manifestDescs (save_result [] (Obj.tupv [Obj.pyInt 1, Obj.pyStr "x"]) true).2,
      e.sha256.isSome ∧ e.size.isSome) ∧
    (∀ e ∈ manifestDescs (save_result [] (Obj.tupv [Obj.pyInt 1, Obj.pyStr "x"]) false).2,
      e.sha256 = none ∧ e.size = none) :=
  claim_C6_checksum_stamps [] (Obj.tupv [Obj.pyInt 1, Obj.pyStr "x"])

/-! ### Integrity failures on corrupted leaf files -/

theorem strContains_appL (s t u : String) (h : strContains s u) : strContains (s ++ t) u := by
  obtain ⟨l, r, rfl⟩ := h
  exact ⟨l, r ++ t, by simp [String.append_assoc]⟩

theorem strContains_appR (s t u : String) (h : strContains t u) : strContains (s ++ t) u := by
  obtain ⟨l, r, rfl⟩ := h
  exact ⟨s ++ l, r, by simp [String.append_assoc]⟩

theorem strContains_self (t : String) : strContains t t :=
  ⟨"", "", by simp⟩

theorem integrityMsg_contains_path (base path kind expSha gotSha : String)
    (expSz gotSz : Nat) (st : Bool) :
    strContains (integrityMsg base path kind expSha expSz gotSha gotSz st) path := by
  unfold integrityMsg
  repeat first
    | exact strContains_appR _ _ _ (strContains_self _)
    | apply strContains_appL

theorem integrityMsg_contains_manifest (base path kind expSha gotSha : String)
    (expSz gotSz : Nat) (st : Bool) :
    strContains (integrityMsg base path kind expSha expSz gotSha gotSz st)
      (base ++ "/manifest.json") := by
  refine ⟨"Cache integrity check failed\n" ++ "  file: " ++ path ++ "\n" ++ "  kind: " ++
    kind ++ "\n" ++ "  expected: sha256=" ++ expSha ++ " size=" ++ toString expSz ++ "\n" ++
    "  got:      sha256=" ++ gotSha ++ " size=" ++ toString gotSz ++ "\n" ++
    "strict_integrity=" ++ pyBoolStr st ++ ": refusing to load cached result.\n" ++
    "Fix one of the following:\n" ++
    "  1) Delete the corrupted file or its parent cache key directory and retry.\n" ++
    "  2) Re-run with strict_integrity=False to recompute and overwrite.\n" ++
    "  3) If you intentionally modified the file, update the stored checksum in:\n" ++
    "       ", "\n", ?_⟩
  simp [integrityMsg, String.append_assoc]

theorem integrityMsg_contains_expSha (base path kind expSha gotSha : String)
    (expSz gotSz : Nat) (st : Bool) :
    strContains (integrityMsg base path kind expSha expSz gotSha gotSz st) expSha := by
  unfold integrityMsg
  repeat first
    | exact strContains_appR _ _ _ (strContains_self _)
    | apply strContains_appL

theorem integrityMsg_contains_gotSha (base path kind expSha gotSha : String)
    (expSz gotSz : Nat) (st : Bool) :
    strContains (integrityMsg base path kind expSha expSz gotSha gotSz st) gotSha := by
  unfold integrityMsg
  repeat first
    | exact strContains_appR _ _ _ (strContains_self _)
    | apply strContains_appL

theorem integrityMsg_contains_expSz (base path kind expSha gotSha : String)
    (expSz gotSz : Nat) (st : Bool) :
    strContains (integrityMsg base path kind expSha expSz gotSha gotSz st) (toString expSz) := by
  unfold integrityMsg
  repeat first
    | exact strContains_appR _ _ _ (strContains_self _)
    | apply strContains_appL

theorem integrityMsg_contains_gotSz (base path kind expSha gotSha : String)
    (expSz gotSz : Nat) (st : Bool) :
    strContains (integrityMsg base path kind expSha expSz gotSha gotSz st) (toString gotSz) := by
  unfold integrityMsg
  repeat first
    | exact strContains_appR _ _ _ (strContains_self _)
    | apply strContains_appL

theorem integrityMsg_contains_strictHint (base path kind expSha gotSha : String)
    (expSz gotSz : Nat) (st : Bool) :
    strContains (integrityMsg base path kind expSha expSz gotSha gotSz st)
      "strict_integrity=False" := by
  unfold integrityMsg
  repeat first
    | exact strContains_appR _ _ _
        ⟨"  2) Re-run with ", " to recompute and overwrite.\n", by rfl⟩
    | apply strContains_appL

theorem integrityMsg_contains_deleteHint (base path kind expSha gotSha : String)
    (expSz gotSz : Nat) (st : Bool) :
    strContains (integrityMsg base path kind expSha expSz gotSha gotSz st)
      "Delete the corrupted file" := by
  unfold integrityMsg
  repeat first
    | exact strContains_appR _ _ _
        ⟨"  1) ", " or its parent cache key directory and retry.\n", by rfl⟩
    | apply strContains_appL

theorem load_leaf_corrupt (files0 : List (FileKey × Blob)) (base : String) (desc : LeafDesc)
    (b : Blob) (sc : Bool) (expSha : String) (expSz : Nat)
    (hsha : desc.sha256 = some expSha) (hsz : desc.size = some expSz)
    (hmis : (sha256_file b).1 ≠ expSha ∨ (sha256_file b).2 ≠ expSz) :
    load_leaf ((desc.file, b) :: files0) base desc true sc =
      .error (.integrity (integrityMsg base (base ++ "/" ++ fileName desc.file) desc.kind
        expSha expSz (sha256_file b).1 (sha256_file b).2 sc)) := by
  unfold load_leaf
  rw [lookupFile_cons, if_pos rfl, hsha]
  simp only [hsz, Option.getD_some, if_pos trivial, ite_true]
  rw [if_pos hmis]

theorem load_result_first_corrupt (v : Obj) (b : Blob) (base : String) (sc : Bool)
    (desc : LeafDesc) (expSha : String) (expSz : Nat)
    (hdesc : (manifestDescs (manifestOf v true)).head? = some desc)
    (hsha : desc.sha256 = some expSha) (hsz : desc.size = some expSz)
    (hmis : (sha256_file b).1 ≠ expSha ∨ (sha256_file b).2 ≠ expSz) :
    load_result ((desc.file, b) :: (resultWrites v).reverse) base (manifestOf v true) true sc =
      .error (.integrity (integrityMsg base (base ++ "/" ++ fileName desc.file) desc.kind
        expSha expSz (sha256_file b).1 (sha256_file b).2 sc)) := by
  have hcor := load_leaf_corrupt ((resultWrites v).reverse) base desc b sc expSha expSz
    hsha hsz hmis
  cases v with
  | df d =>
    simp only [manifestOf, manifestDescs, descOf, List.map_cons, List.map_nil,
      List.head?_cons, Option.some_inj] at hdesc
    subst hdesc
    simp [load_result, manifestOf, hcor]
  | tupv xs =>
    cases xs with
    | nil => simp [manifestOf, manifestDescs, elemDescs] at hdesc
    | cons x rest =>
      simp only [manifestOf, manifestDescs, descOf, elemDescs, List.map_cons,
        List.head?_cons, Option.some_inj] at hdesc
      subst hdesc
      simp [load_result, manifestOf, elemDescs, loadElems, hcor, Bind.bind, Except.bind,
        Except.map]
  | listv xs =>
    cases xs with
    | nil => simp [manifestOf, manifestDescs, elemDescs] at hdesc
    | cons x rest =>
      simp only [manifestOf, manifestDescs, descOf, elemDescs, List.map_cons,
        List.head?_cons, Option.some_inj] at hdesc
      subst hdesc
      simp [load_result, manifestOf, elemDescs, loadElems, hcor, Bind.bind, Except.bind,
        Except.map]
  | dictv kvs =>
    cases kvs with
    | nil => simp [manifestOf, manifestDescs, kvItems] at hdesc
    | cons kv rest =>
      simp only [manifestOf, manifestDescs, descOf, kvItems, List.map_cons,
        List.head?_cons, Option.some_inj] at hdesc
      subst hdesc
      simp [load_result, manifestOf, kvItems, loadKvs, hcor, Bind.bind, Except.bind,
        Except.map]
  | pyNone =>
    simp only [manifestOf, manifestDescs, descOf, List.map_cons, List.map_nil,
      List.head?_cons, Option.some_inj] at hdesc
    subst hdesc
    simp [load_result, manifestOf, hcor]
  | pyBool bb =>
    simp only [manifestOf, manifestDescs, descOf, List.map_cons, List.map_nil,
      List.head?_cons, Option.some_inj] at hdesc
    subst hdesc
    simp [load_result, manifestOf, hcor]
  | pyInt n =>
    simp only [manifestOf, manifestDescs, descOf, List.map_cons, List.map_nil,
      List.head?_cons, Option.some_inj] at hdesc
    subst hdesc
    simp [load_result, manifestOf, hcor]
  | pyStr s =>
    simp only [manifestOf, manifestDescs, descOf, List.map_cons, List.map_nil,
      List.head?_cons, Option.some_inj] at hdesc
    subst hdesc
    simp [load_result, manifestOf, hcor]

/-- C4: after a stored leaf file is corrupted so that its digest or size no
    longer matches the stamp, a call with strict integrity (and hence
    verification) enabled surfaces the integrity error to the caller without
    recomputing; the message carries the corrupted file path, the manifest
    path, expected and actual digest and size, and both remediation hints;
    the on-disk entry (files, manifest, lock) is returned unmodified.  The
    entry is the commit of v; the corrupted leaf is the first one the
    manifest references (the one the repository integrity test corrupts). -/
theorem claim_C4_strict_integrity_error (v : Obj) (b : Blob) (base : String)
    (func : Except String Obj) (desc : LeafDesc) (expSha : String) (expSz : Nat)
    (hdesc : (manifestDescs (manifestOf v true)).head? = some desc)
    (hsha : desc.sha256 = some expSha) (hsz : desc.size = some expSz)
    (hmis : (sha256_file b).1 ≠ expSha ∨ (sha256_file b).2 ≠ expSz) :
    wrapper (defaultCfg base) func
        { files := (desc.file, b) :: (resultWrites v).reverse,
          manifest := some (manifestOf v true), lock := false } =
      (.error (.integrity (integrityMsg base (base ++ "/" ++ fileName desc.file) desc.kind
          expSha expSz (sha256_file b).1 (sha256_file b).2 true)),
        { files := (desc.file, b) :: (resultWrites v).reverse,
          manifest := some (manifestOf v true), lock := false }) ∧
    strContains (integrityMsg base (base ++ "/" ++ fileName desc.file) desc.kind
        expSha expSz (sha256_file b).1 (sha256_file b).2 true)
      (base ++ "/" ++ fileName desc.file) ∧
    strContains (integrityMsg base (base ++ "/" ++ fileName desc.file) desc.kind
        expSha expSz (sha256_file b).1 (sha256_file b).2 true)
      (base ++ "/manifest.json") ∧
    strContains (integrityMsg base (base ++ "/" ++ fileName desc.file) desc.kind
        expSha expSz (sha256_file b).1 (sha256_file b).2 true) expSha ∧
    strContains (integrityMsg base (base ++ "/" ++ fileName desc.file) desc.kind
        expSha expSz (sha256_file b).1 (sha256_file b).2 true) (sha256_file b).1 ∧
    strContains (integrityMsg base (base ++ "/" ++ fileName desc.file) desc.kind
        expSha expSz (sha256_file b).1 (sha256_file b).2 true) (toString expSz) ∧
    strContains (integrityMsg base (base ++ "/" ++ fileName desc.file) desc.kind
        expSha expSz (sha256_file b).1 (sha256_file b).2 true) (toString (sha256_file b).2) ∧
    strContains (integrityMsg base (base ++ "/" ++ fileName desc.file) desc.kind
        expSha expSz (sha256_file b).1 (sha256_file b).2 true) "strict_integrity=False" ∧
    strContains (integrityMsg base (base ++ "/" ++ fileName desc.file) desc.kind
        expSha expSz (sha256_file b).1 (sha256_file b).2 true) "Delete the corrupted file" := by
  have hload := load_result_first_corrupt v b base true desc expSha expSz hdesc hsha hsz hmis
  refine ⟨?_, integrityMsg_contains_path _ _ _ _ _ _ _ _,
    integrityMsg_contains_manifest _ _ _ _ _ _ _ _,
    integrityMsg_contains_expSha _ _ _ _ _ _ _ _,
    integrityMsg_contains_gotSha _ _ _ _ _ _ _ _,
    integrityMsg_contains_expSz _ _ _ _ _ _ _ _,
    integrityMsg_contains_gotSz _ _ _ _ _ _ _ _,
    integrityMsg_contains_strictHint _ _ _ _ _ _ _ _,
    integrityMsg_contains_deleteHint _ _ _ _ _ _ _ _⟩
  unfold wrapper probe defaultCfg
  simp [hload]

/-- Witness for C4: a committed single-DataFrame entry whose parquet leaf is
    replaced by junk bytes of a different size; the call surfaces the
    integrity error. -/
theorem claim_C4_strict_integrity_error_witness :
    ((elemDesc 0 (Obj.df ⟨[("x", [1])], true⟩) true).sha256 =
      some (sha256_file (Blob.parquet ⟨[("x", [1])], true⟩)).1) ∧
    ((sha256_file (Blob.raw [])).2 ≠ (sha256_file (Blob.parquet ⟨[("x", [1])], true⟩)).2) ∧
    (wrapper (defaultCfg "root") (.ok Obj.pyNone)
        { files := ((elemDesc 0 (Obj.df ⟨[("x", [1])], true⟩) true).file, Blob.raw []) ::
            (resultWrites (Obj.df ⟨[("x", [1])], true⟩)).reverse,
          manifest := some (manifestOf (Obj.df ⟨[("x", [1])], true⟩) true),
          lock := false }).1 =
      .error (.integrity (integrityMsg "root"
        ("root" ++ "/" ++ fileName (elemDesc 0 (Obj.df ⟨[("x", [1])], true⟩) true).file)
        (elemDesc 0 (Obj.df ⟨[("x", [1])], true⟩) true).kind
        (sha256_file (Blob.parquet ⟨[("x", [1])], true⟩)).1
        (sha256_file (Blob.parquet ⟨[("x", [1])], true⟩)).2
        (sha256_file (Blob.raw [])).1 (sha256_file (Blob.raw [])).2 true)) := by
  refine ⟨by rfl, by decide, ?_⟩
  have h := claim_C4_strict_integrity_error (Obj.df ⟨[("x", [1])], true⟩) (Blob.raw []) "root"
    (.ok Obj.pyNone) (elemDesc 0 (Obj.df ⟨[("x", [1])], true⟩) true)
    (sha256_file (Blob.parquet ⟨[("x", [1])], true⟩)).1
    (sha256_file (Blob.parquet ⟨[("x", [1])], true⟩)).2
    (by rfl) (by rfl) (by rfl) (Or.inr (by decide))
  rw [h.1]

/-- C5: with strict_integrity disabled (verification still on), a checksum
    mismatch on a stored leaf file is treated as a cache miss: the call does
    not raise, recomputes, overwrites the entry with the fresh result vF,
    and returns it; the overwritten entry subsequently decodes to vF. -/
theorem claim_C5_selfheal_recompute (v vF : Obj) (b : Blob) (base : String)
    (desc : LeafDesc) (expSha : String) (expSz : Nat)
    (hdesc : (manifestDescs (manifestOf v true)).head? = some desc)
    (hsha : desc.sha256 = some expSha) (hsz : desc.size = some expSz)
    (hmis : (sha256_file b).1 ≠ expSha ∨ (sha256_file b).2 ≠ expSz) :
    wrapper { strict_integrity := false, basePath := base } (.ok vF)
        { files := (desc.file, b) :: (resultWrites v).reverse,
          manifest := some (manifestOf v true), lock := false } =
      (.ok vF,
        { files := (resultWrites vF).reverse ++ ((desc.file, b) :: (resultWrites v).reverse),
          manifest := some (manifestOf vF true), lock := false }) ∧
    load_result ((resultWrites vF).reverse ++ ((desc.file, b) :: (resultWrites v).reverse))
      base (manifestOf vF true) true false = .ok vF := by
  have hload := load_result_first_corrupt v b base false desc expSha expSz hdesc hsha hsz hmis
  constructor
  · unfold wrapper probe
    simp [hload, save_result_eq]
  · exact load_of_committed vF _ base true true false

/-- Witness for C5: the corrupted single-DataFrame entry heals itself and
    the call returns the fresh value. -/
theorem claim_C5_selfheal_recompute_witness :
    ((elemDesc 0 (Obj.df ⟨[("y", [2])], true⟩) true).sha256 =
      some (sha256_file (Blob.parquet ⟨[("y", [2])], true⟩)).1) ∧
    ((sha256_file (Blob.raw [9])).2 ≠ (sha256_file (Blob.parquet ⟨[("y", [2])], true⟩)).2) ∧
    (wrapper { strict_integrity := false, basePath := "root" } (.ok (Obj.pyInt 5))
        { files := ((elemDesc 0 (Obj.df ⟨[("y", [2])], true⟩) true).file, Blob.raw [9]) ::
            (resultWrites (Obj.df ⟨[("y", [2])], true⟩)).reverse,
          manifest := some (manifestOf (Obj.df ⟨[("y", [2])], true⟩) true),
          lock := false }).1 = .ok (Obj.pyInt 5) := by
  refine ⟨by rfl, by decide, ?_⟩
  have h := claim_C5_selfheal_recompute (Obj.df ⟨[("y", [2])], true⟩) (Obj.pyInt 5)
    (Blob.raw [9]) "root" (elemDesc 0 (Obj.df ⟨[("y", [2])], true⟩) true)
    (sha256_file (Blob.parquet ⟨[("y", [2])], true⟩)).1
    (sha256_file (Blob.parquet ⟨[("y", [2])], true⟩)).2
    (by rfl) (by rfl) (by rfl) (Or.inr (by decide))
  rw [h.1]

/-! ### Unknown container kinds and failing computations -/

theorem load_result_unknown (files : List (FileKey × Blob)) (base : String) (m : Manifest)
    (vc sc : Bool) (h : m.container ∉ (["df", "tuple", "list", "dict", "other"] : List String)) :
    load_result files base m vc sc = .error (.decode "unknown container") := by
  simp only [List.mem_cons, List.mem_singleton, not_or] at h
  obtain ⟨h1, h2, h3, h4, h5, -⟩ := h
  unfold load_result
  rw [if_neg h1, if_neg h2, if_neg h3, if_neg h4, if_neg h5]

theorem wrapper_unknown_selfheal (v : Obj) (base : String) (files0 : List (FileKey × Blob))
    (c : String) (items : List Item)
    (hc : c ∉ (["df", "tuple", "list", "dict", "other"] : List String)) :
    wrapper (defaultCfg base) (.ok v)
        { files := files0, manifest := some ⟨c, items⟩, lock := false } =
      (.ok v, { files := (resultWrites v).reverse ++ files0,
                manifest := some (manifestOf v true), lock := false }) := by
  have hl := load_result_unknown files0 base ⟨c, items⟩ true true hc
  unfold wrapper probe defaultCfg
  simp [hl, save_result_eq]

/-- C7 as amended: a manifest declaring a container kind the codec does not
    recognize makes load_result fail with a fatal decode error whenever it
    is invoked; but the facade swallows decode failures during both the
    pre-lock probe and the post-lock double check and treats them as a
    miss, so the call recomputes and overwrites the entry instead of
    surfacing the failure. -/
theorem claim_C7_unknown_container_amended :
    (∀ (files : List (FileKey × Blob)) (base : String) (m : Manifest) (vc sc : Bool),
      m.container ∉ (["df", "tuple", "list", "dict", "other"] : List String) →
      load_result files base m vc sc = .error (.decode "unknown container")) ∧
    (∀ (v : Obj) (base : String) (files0 : List (FileKey × Blob)) (c : String)
      (items : List Item), c ∉ (["df", "tuple", "list", "dict", "other"] : List String) →
      wrapper (defaultCfg base) (.ok v)
          { files := files0, manifest := some ⟨c, items⟩, lock := false } =
        (.ok v, { files := (resultWrites v).reverse ++ files0,
                  manifest := some (manifestOf v true), lock := false })) :=
  ⟨fun files base m vc sc h => load_result_unknown files base m vc sc h,
   fun v base files0 c items hc => wrapper_unknown_selfheal v base files0 c items hc⟩

/-- Counterexample to C7 as stated: with a manifest declaring the unknown
    container kind "bogus", a call whose computation returns 7 finishes
    with .ok 7 - the decode failure met while probing before lock
    acquisition is swallowed and treated as a miss, not surfaced. -/
theorem claim_C7_unknown_container_counterexample :
    (wrapper (defaultCfg "root") (.ok (Obj.pyInt 7))
      { files := [], manifest := some ⟨"bogus", []⟩, lock := false }).1 =
      .ok (Obj.pyInt 7) := by
  have h := wrapper_unknown_selfheal (Obj.pyInt 7) "root" [] "bogus" [] (by decide)
  rw [h]

/-- Witness for the amended C7 at the container kind "bogus". -/
theorem claim_C7_unknown_container_amended_witness :
    (("bogus" : String) ∉ (["df", "tuple", "list", "dict", "other"] : List String)) ∧
    load_result [] "root" ⟨"bogus", []⟩ true true = .error (.decode "unknown container") :=
  ⟨by decide,
   claim_C7_unknown_container_amended.1 [] "root" ⟨"bogus", []⟩ true true (by decide)⟩

/-- C10: if the wrapped computation raises during a miss, the exception
    propagates to the caller, no manifest is published for the entry, the
    leaf files are untouched, and the lock file is removed despite the
    failure (the with-statement exit of _DirLock). -/
theorem claim_C10_failure_cleanup (cfg : Config) (fs : FS) (e : String)
    (hman : fs.manifest = none) (hlock : fs.lock = false) :
    wrapper cfg (.error e) fs =
      (.error (.user e), { files := fs.files, manifest := none, lock := false }) := by
  unfold wrapper probe
  simp [hman, hlock]

/-- Witness for C10: a failing computation on an empty entry directory. -/
theorem claim_C10_failure_cleanup_witness :
    wrapper (defaultCfg "root") (.error "boom") { } =
      (.error (.user "boom"), { files := [], manifest := none, lock := false }) :=
  claim_C10_failure_cleanup (defaultCfg "root") { } "boom" rfl rfl

/-! ### Fingerprint derivation -/

theorem insertionSortKw_eq_of_perm (l1 l2 : List (String × Arg)) (hp : l1.Perm l2)
    (hnd : (l1.map Prod.fst).Nodup) :
    List.insertionSort (fun a b => a.1 ≤ b.1) l1 =
    List.insertionSort (fun a b => a.1 ≤ b.1) l2 := by
  haveI ht : IsTotal (String × Arg) (fun a b => a.1 ≤ b.1) := ⟨fun a b => le_total a.1 b.1⟩
  haveI htr : IsTrans (String × Arg) (fun a b => a.1 ≤ b.1) :=
    ⟨fun a b c h1 h2 => le_trans h1 h2⟩
  haveI : IsAntisymm (String × Arg) (fun a b => a.1 < b.1) :=
    ⟨fun a b h1 h2 => absurd (lt_trans h1 h2) (lt_irrefl _)⟩
  have hs1 := List.sorted_insertionSort (fun a b => a.1 ≤ b.1) l1
  have hs2 := List.sorted_insertionSort (fun a b => a.1 ≤ b.1) l2
  have hp1 := List.perm_insertionSort (fun a b => a.1 ≤ b.1) l1
  have hp2 := List.perm_insertionSort (fun a b => a.1 ≤ b.1) l2
  have hperm : (List.insertionSort (fun a b => a.1 ≤ b.1) l1).Perm
      (List.insertionSort (fun a b => a.1 ≤ b.1) l2) :=
    (hp1.trans hp).trans hp2.symm
  have hnd1 : ((List.insertionSort (fun a b => a.1 ≤ b.1) l1).map Prod.fst).Nodup :=
    hnd.perm (hp1.map Prod.fst).symm
  have hnd2 : ((List.insertionSort (fun a b => a.1 ≤ b.1) l2).map Prod.fst).Nodup :=
    hnd1.perm (hperm.map Prod.fst)
  have hstrict : ∀ (l : List (String × Arg)), List.Sorted (fun a b => a.1 ≤ b.1) l →
      ((l.map Prod.fst).Nodup) → List.Sorted (fun a b => a.1 < b.1) l := by
    intro l hs hn
    have hne : l.Pairwise (fun a b => a.1 ≠ b.1) := List.pairwise_map.mp hn
    exact (hs.and hne).imp (fun h => lt_of_le_of_ne h.1 h.2)
  exact List.eq_of_perm_of_sorted hperm (hstrict _ hs1 hnd1) (hstrict _ hs2 hnd2)

/-- C8: with canonicalize_kwargs on, the derived fingerprint is invariant
    under any reordering of the same keyword arguments (keyword names are
    distinct, as in a Python dict); with it off, the two insertion orders of
    the same keyword arguments yield distinct fingerprints, shown at the
    arguments of the spec ({a:1, b:2} versus {b:2, a:1}). -/
theorem claim_C8_kwarg_order (fn : String) (args : List Arg) (version : Option String)
    (exclude : List String) :
    (∀ (kw1 kw2 : List (String × Arg)), kw1.Perm kw2 → (kw1.map Prod.fst).Nodup →
      make_key fn args kw1 version exclude true =
      make_key fn args kw2 version exclude true) ∧
    (make_key "f" [] [("a", .val (.pyInt 1)), ("b", .val (.pyInt 2))] none [] false ≠
      make_key "f" [] [("b", .val (.pyInt 2)), ("a", .val (.pyInt 1))] none [] false) := by
  constructor
  · intro kw1 kw2 hp hnd
    have hfp : (if exclude.isEmpty then kw1
          else kw1.filter (fun kv => !(exclude.contains kv.1))).Perm
        (if exclude.isEmpty then kw2
          else kw2.filter (fun kv => !(exclude.contains kv.1))) := by
      split
      · exact hp
      · exact hp.filter _
    have hfnd : ((if exclude.isEmpty then kw1
        else kw1.filter (fun kv => !(exclude.contains kv.1))).map Prod.fst).Nodup := by
      split
      · exact hnd
      · exact hnd.sublist ((List.filter_sublist _).map Prod.fst)
    have hsort := insertionSortKw_eq_of_perm _ _ hfp hfnd
    simp only [make_key, if_true]
    rw [hsort]
  · decide

/-- Witness for the canonicalized half of C8 at concrete reordered keyword
    lists. -/
theorem claim_C8_kwarg_order_witness :
    (([("a", Arg.val (.pyInt 1)), ("b", Arg.val (.pyInt 2))] : List (String × Arg)).Perm
      [("b", Arg.val (.pyInt 2)), ("a", Arg.val (.pyInt 1))]) ∧
    make_key "f" [] [("a", Arg.val (.pyInt 1)), ("b", Arg.val (.pyInt 2))] none [] true =
      make_key "f" [] [("b", Arg.val (.pyInt 2)), ("a", Arg.val (.pyInt 1))] none [] true := by
  refine ⟨List.Perm.swap _ _ _, ?_⟩
  exact (claim_C8_kwarg_order "f" [] none []).1 _ _ (List.Perm.swap _ _ _) (by simp)

theorem hexDigitChar_mem (k : Nat) (h : k < 16) : hexDigitChar k ∈ hexChars := by
  interval_cases k <;> decide

theorem toHex64_length (n : Nat) : (toHex64 n).length = 64 := by
  simp [toHex64, String.length]

theorem toHex64_hex (n : Nat) : ∀ c ∈ (toHex64 n).data, c ∈ hexChars := by
  intro c hc
  simp only [toHex64, String.data] at hc
  simp only [List.mem_map, List.mem_range] at hc
  obtain ⟨i, hi, rfl⟩ := hc
  exact hexDigitChar_mem _ (Nat.mod_lt _ (by norm_num))

/-- C9: fingerprint derivation never throws: make_key is total and returns
    a 64-character string of lowercase hex digits for every function
    identity, arguments (including unpicklable ones), version, exclusion
    set, and canonicalization flag.  The third conjunct shows the fallback
    genuinely engages: the primary serializer fails on any payload whose
    arguments contain an exotic object, and make_key still produces a
    digest there, via the textual rendering. -/
theorem claim_C9_make_key_total_hex (fn : String) (args : List Arg)
    (kwargs : List (String × Arg)) (version : Option String) (exclude : List String)
    (canon : Bool) :
    (make_key fn args kwargs version exclude canon).length = 64 ∧
    (∀ c ∈ (make_key fn args kwargs version exclude canon).data, c ∈ hexChars) ∧
    (∀ (id : Nat) (txt : String), encPayload (Arg.exotic id txt :: args) kwargs = none) := by
  refine ⟨?_, ?_, ?_⟩
  · unfold make_key sha256hex
    exact toHex64_length _
  · unfold make_key sha256hex
    exact toHex64_hex _
  · intro id txt
    simp [encPayload, encArgList, encArg, Bind.bind, Option.bind]

/-- Witness for C9 at a call with an unpicklable positional argument. -/
theorem claim_C9_make_key_total_hex_witness :
    (make_key "mod.fn" [Arg.exotic 0 "socket"] [("a", Arg.val (.pyInt 1))]
      (some "v1") ["seed"] true).length = 64 :=
  (claim_C9_make_key_total_hex "mod.fn" [Arg.exotic 0 "socket"] [("a", Arg.val (.pyInt 1))]
    (some "v1") ["seed"] true).1

/-! ### The commit protocol invariant -/

theorem probe_of_manifest_none (cfg : Config) (fs : FS) (h : fs.manifest = none) :
    probe cfg fs = none := by
  simp [probe, h]

theorem probe_of_committed (cfg : Config) (v : Obj) (fs : FS)
    (hrefresh : cfg.refresh = false)
    (hm : fs.manifest = some (manifestOf v cfg.write_checksums))
    (hf : fs.files = (resultWrites v).reverse) :
    probe cfg fs = some (.ok v) := by
  have hload := load_of_committed v [] cfg.basePath cfg.write_checksums
    cfg.verify_checksums cfg.strict_integrity
  rw [List.append_nil] at hload
  simp [probe, hrefresh, hm, hf, hload]

theorem getElem?_set_lookup {α : Type} (l : List α) (i j : Nat) (a b : α)
    (h : (l.set i a)[j]? = some b) : (j = i ∧ b = a) ∨ (j ≠ i ∧ l[j]? = some b) := by
  by_cases hji : j = i
  · subst hji
    left
    refine ⟨rfl, ?_⟩
    rcases List.getElem?_eq_some.mp h with ⟨hlt, hb⟩
    rw [List.getElem?_set_self (by simpa using hlt)] at h
    exact (Option.some_inj.mp h).symm
  · right
    exact ⟨hji, by rwa [List.getElem?_set_ne (fun hh => hji hh.symm)] at h⟩

theorem getElem?_set_self_of_some {α : Type} (l : List α) (i : Nat) (a b : α)
    (h : l[i]? = some a) : (l.set i b)[i]? = some b := by
  rcases List.getElem?_eq_some.mp h with ⟨hlt, -⟩
  rw [List.getElem?_set_self (by simpa using hlt)]

/-- Preservation of the invariant by a step that only moves process i to a
    new control point that is not a computation state; the new point may
    hold the lock only if process i already owns it. -/
theorem minv_set_plain (cfg : Config) (v : Obj) (c : MConf) (inv : MInv cfg v c)
    (i : Nat) (pcold pcn : PC) (hpc : c.procs[i]? = some pcold)
    (hop : ¬ postCompute pcold)
    (hown : holdsLock pcn → c.owner = some i) (hnp : ¬ postCompute pcn)
    (hnr : pcResultOk v pcn) (hns : manifestSeen pcn → c.fs.manifest.isSome) :
    MInv cfg v { c with procs := c.procs.set i pcn } := by
  constructor
  · exact inv.hlock
  · intro j pcj hj hold
    rcases getElem?_set_lookup _ _ _ _ _ hj with ⟨rfl, rfl⟩ | ⟨hne, hj2⟩
    · exact hown hold
    · exact inv.howner j pcj hj2 hold
  · exact inv.hman
  · intro j pend m hj
    rcases getElem?_set_lookup _ _ _ _ _ hj with ⟨rfl, hb⟩ | ⟨hne, hj2⟩
    · exact absurd (hb ▸ trivial : postCompute pcn) hnp
    · exact inv.hwrite j pend m hj2
  · exact inv.hcount1
  · constructor
    · intro h0
      obtain ⟨hm0, hnopost⟩ := inv.hcount0.mp h0
      refine ⟨hm0, ?_⟩
      intro j pcj hj
      rcases getElem?_set_lookup _ _ _ _ _ hj with ⟨rfl, rfl⟩ | ⟨hne, hj2⟩
      · exact hnp
      · exact hnopost j pcj hj2
    · intro ⟨hm0, hnopost⟩
      refine inv.hcount0.mpr ⟨hm0, ?_⟩
      intro j pcj hj
      by_cases hji : j = i
      · subst hji
        rw [hpc] at hj
        cases hj
        exact hop
      · refine hnopost j pcj ?_
        rw [List.getElem?_set_ne (fun hh => hji hh.symm)]
        exact hj
  · intro j pcj hj hseenj
    rcases getElem?_set_lookup _ _ _ _ _ hj with ⟨rfl, rfl⟩ | ⟨hne, hj2⟩
    · exact hns hseenj
    · exact inv.hseen j pcj hj2 hseenj
  · intro j pcj hj
    rcases getElem?_set_lookup _ _ _ _ _ hj with ⟨rfl, rfl⟩ | ⟨hne, hj2⟩
    · exact hnr
    · exact inv.hres j pcj hj2
  · intro h1 h2
    refine inv.hempty h1 ?_
    intro j pend m hj
    by_cases hji : j = i
    · subst hji
      rw [hpc] at hj
      cases hj
      exact hop trivial
    · refine h2 j pend m ?_
      rw [List.getElem?_set_ne (fun hh => hji hh.symm)]
      exact hj

/-- Preservation of the invariant by a lock release that moves process i
    from a lock-holding, non-writing point to done r, with the manifest
    already published. -/
theorem minv_release (cfg : Config) (v : Obj) (c : MConf) (inv : MInv cfg v c)
    (i : Nat) (pcold : PC) (r : Obj) (hpc : c.procs[i]? = some pcold)
    (holdold : holdsLock pcold) (hrv : pcResultOk v (.done r))
    (hms : c.fs.manifest.isSome) :
    MInv cfg v
      { c with fs := { c.fs with lock := false }, owner := none,
               procs := c.procs.set i (.done r) } := by
  have howni : c.owner = some i := inv.howner i pcold hpc holdold
  constructor
  · rfl
  · intro j pcj hj hold
    rcases getElem?_set_lookup _ _ _ _ _ hj with ⟨rfl, rfl⟩ | ⟨hne, hj2⟩
    · exact absurd hold (by simp [holdsLock])
    · have h3 := inv.howner j pcj hj2 hold
      rw [howni] at h3
      exact absurd (Option.some_inj.mp h3).symm hne
  · intro m hm
    exact inv.hman m hm
  · intro j pend m hj
    rcases getElem?_set_lookup _ _ _ _ _ hj with ⟨rfl, hb⟩ | ⟨hne, hj2⟩
    · exact nomatch hb
    · have h3 := inv.howner j _ hj2 trivial
      rw [howni] at h3
      exact absurd (Option.some_inj.mp h3).symm hne
  · exact inv.hcount1
  · constructor
    · intro h0
      obtain ⟨hm0, -⟩ := inv.hcount0.mp h0
      exact absurd hms (by simp [hm0])
    · intro h
      exact absurd hms (by simp [show c.fs.manifest = none from h.1])
  · intro j pcj hj hsj
    exact hms
  · intro j pcj hj
    rcases getElem?_set_lookup _ _ _ _ _ hj with ⟨rfl, rfl⟩ | ⟨hne, hj2⟩
    · exact hrv
    · exact inv.hres j pcj hj2
  · intro h1 h2
    exact absurd hms (by simp [show c.fs.manifest = none from h1])

/-- The invariant is preserved by every step of every process (refresh off,
    as in the contention scenario). -/
theorem minv_step (cfg : Config) (v : Obj) (hrefresh : cfg.refresh = false)
    (c : MConf) (inv : MInv cfg v c) (i : Nat) : MInv cfg v (cstep cfg v c i) := by
  unfold cstep
  cases hpc : c.procs[i]? with
  | none => exact inv
  | some pc =>
    cases pc with
    | done r => exact inv
    | failed => exact inv
    | start =>
      cases hm : c.fs.manifest with
      | none =>
        rw [probe_of_manifest_none cfg c.fs hm]
        exact minv_set_plain cfg v c inv i .start .acquiring hpc
          (fun h => h.elim) (fun h => h.elim) (fun h => h.elim)
          trivial (fun h => h.elim)
      | some m =>
        obtain ⟨hmq, hmf⟩ := inv.hman m hm
        subst hmq
        rw [probe_of_committed cfg v c.fs hrefresh hm hmf]
        exact minv_set_plain cfg v c inv i .start (.done v) hpc
          (fun h => h.elim) (fun h => h.elim) (fun h => h.elim)
          rfl (fun _ => by simp [hm])
    | acquiring =>
      cases hl : c.fs.lock with
      | true => exact inv
      | false =>
        have hnone : c.owner = none := by
          have hlk := inv.hlock
          rw [hl] at hlk
          cases ho : c.owner with
          | none => rfl
          | some x => rw [ho] at hlk; exact nomatch hlk
        constructor
        · rfl
        · intro j pcj hj hold
          rcases getElem?_set_lookup _ _ _ _ _ hj with ⟨rfl, rfl⟩ | ⟨hne, hj2⟩
          · rfl
          · have h3 := inv.howner j pcj hj2 hold
            rw [hnone] at h3
            exact nomatch h3
        · intro m hm
          exact inv.hman m hm
        · intro j pend m hj
          rcases getElem?_set_lookup _ _ _ _ _ hj with ⟨rfl, hb⟩ | ⟨hne, hj2⟩
          · exact nomatch hb
          · have h3 := inv.howner j _ hj2 trivial
            rw [hnone] at h3
            exact nomatch h3
        · exact inv.hcount1
        · constructor
          · intro h0
            obtain ⟨hm0, hnp⟩ := inv.hcount0.mp h0
            refine ⟨hm0, ?_⟩
            intro j pcj hj
            rcases getElem?_set_lookup _ _ _ _ _ hj with ⟨rfl, rfl⟩ | ⟨hne, hj2⟩
            · exact fun h => h.elim
            · exact hnp j pcj hj2
          · intro h
            obtain ⟨hm0, hnp⟩ := h
            refine inv.hcount0.mpr ⟨hm0, ?_⟩
            intro j pcj hj
            by_cases hji : j = i
            · subst hji; rw [hpc] at hj; cases hj; exact fun h => h.elim
            · refine hnp j pcj ?_
              show (c.procs.set i PC.checking)[j]? = some pcj
              rw [List.getElem?_set_ne (fun hh => hji hh.symm)]
              exact hj
        · intro j pcj hj hsj
          rcases getElem?_set_lookup _ _ _ _ _ hj with ⟨rfl, rfl⟩ | ⟨hne, hj2⟩
          · exact hsj.elim
          · exact inv.hseen j pcj hj2 hsj
        · intro j pcj hj
          rcases getElem?_set_lookup _ _ _ _ _ hj with ⟨rfl, rfl⟩ | ⟨hne, hj2⟩
          · trivial
          · exact inv.hres j pcj hj2
        · intro h1 h2
          refine inv.hempty h1 ?_
          intro j pend m hj
          by_cases hji : j = i
          · subst hji; rw [hpc] at hj; cases hj
          · refine h2 j pend m ?_
            show (c.procs.set i PC.checking)[j]? = some (PC.writing pend m)
            rw [List.getElem?_set_ne (fun hh => hji hh.symm)]
            exact hj
    | checking =>
      cases hm : c.fs.manifest with
      | some m =>
        obtain ⟨hmq, hmf⟩ := inv.hman m hm
        subst hmq
        rw [probe_of_committed cfg v c.fs hrefresh hm hmf]
        exact minv_set_plain cfg v c inv i .checking (.releasingHit v) hpc
          (fun h => h.elim)
          (fun _ => inv.howner i .checking hpc trivial)
          (fun h => h.elim)
          rfl (fun _ => by simp [hm])
      | none =>
        rw [probe_of_manifest_none cfg c.fs hm]
        have howni : c.owner = some i := inv.howner i .checking hpc trivial
        have hnowriter : ∀ (j : Nat) (pend : List (FileKey × Blob)) (m2 : Manifest),
            c.procs[j]? ≠ some (.writing pend m2) := by
          intro j pend m2 hj
          have h3 := inv.howner j _ hj trivial
          rw [howni] at h3
          have hji : i = j := Option.some_inj.mp h3
          subst hji
          rw [hpc] at hj
          cases hj
        have hnopost : ∀ (j : Nat) (pcj : PC), c.procs[j]? = some pcj →
            ¬ postCompute pcj := by
          intro j pcj hj hpost
          have hhold : holdsLock pcj := by
            cases pcj <;> first | exact hpost.elim | trivial
          have h3 := inv.howner j pcj hj hhold
          rw [howni] at h3
          have hji : i = j := Option.some_inj.mp h3
          subst hji
          rw [hpc] at hj
          cases hj
          exact hpost
        have hcz : c.computeCount = 0 := inv.hcount0.mpr ⟨hm, hnopost⟩
        have hfe : c.fs.files = [] := inv.hempty hm hnowriter
        constructor
        · exact inv.hlock
        · intro j pcj hj hold
          rcases getElem?_set_lookup _ _ _ _ _ hj with ⟨rfl, rfl⟩ | ⟨hne, hj2⟩
          · exact howni
          · exact inv.howner j pcj hj2 hold
        · intro m2 hm2
          exact nomatch (hm ▸ hm2)
        · intro j pend m2 hj
          rcases getElem?_set_lookup _ _ _ _ _ hj with ⟨rfl, hb⟩ | ⟨hne, hj2⟩
          · injection hb with hb1 hb2
            subst hb1
            subst hb2
            exact ⟨hm, rfl, 0, by simp, by simp [hfe]⟩
          · exact absurd hj2 (hnowriter j pend m2)
        · simp [hcz]
        · constructor
          · intro h0
            exact absurd h0 (by simp)
          · intro h
            exfalso
            exact h.2 i _ (getElem?_set_self_of_some _ _ _ _ hpc) trivial
        · intro j pcj hj hsj
          rcases getElem?_set_lookup _ _ _ _ _ hj with ⟨rfl, rfl⟩ | ⟨hne, hj2⟩
          · exact hsj.elim
          · exact inv.hseen j pcj hj2 hsj
        · intro j pcj hj
          rcases getElem?_set_lookup _ _ _ _ _ hj with ⟨rfl, rfl⟩ | ⟨hne, hj2⟩
          · trivial
          · exact inv.hres j pcj hj2
        · intro h1 h2
          exfalso
          exact h2 i _ _ (getElem?_set_self_of_some _ _ _ _ hpc)
    | writing pending m2 =>
      cases pending with
      | cons w pend =>
        obtain ⟨hmn, hm2, k, hdrop, hfiles⟩ := inv.hwrite i (w :: pend) m2 hpc
        subst hm2
        have howni : c.owner = some i := inv.howner i _ hpc trivial
        have hgetk : (resultWrites v)[k]? = some w := by
          rw [← List.head?_drop, ← hdrop]; rfl
        have hdrop1 : (resultWrites v).drop (k + 1) = pend := by
          rw [← List.drop_drop, ← hdrop]; rfl
        have htake1 : (resultWrites v).take (k + 1) = (resultWrites v).take k ++ [w] := by
          rw [List.take_succ, hgetk]; rfl
        constructor
        · exact inv.hlock
        · intro j pcj hj hold
          rcases getElem?_set_lookup _ _ _ _ _ hj with ⟨rfl, rfl⟩ | ⟨hne, hj2⟩
          · exact howni
          · exact inv.howner j pcj hj2 hold
        · intro m3 hm3
          exact nomatch (hmn ▸ hm3)
        · intro j pend2 m3 hj
          rcases getElem?_set_lookup _ _ _ _ _ hj with ⟨rfl, hb⟩ | ⟨hne, hj2⟩
          · injection hb with hb1 hb2
            subst hb1
            subst hb2
            exact ⟨hmn, rfl, k + 1, hdrop1.symm, by simp [hfiles, htake1]⟩
          · have h3 := inv.howner j _ hj2 trivial
            rw [howni] at h3
            exact absurd (Option.some_inj.mp h3).symm hne
        · exact inv.hcount1
        · constructor
          · intro h0
            exfalso
            exact (inv.hcount0.mp h0).2 i _ hpc trivial
          · intro h
            exfalso
            exact h.2 i _ (getElem?_set_self_of_some _ _ _ _ hpc) trivial
        · intro j pcj hj hsj
          rcases getElem?_set_lookup _ _ _ _ _ hj with ⟨rfl, rfl⟩ | ⟨hne, hj2⟩
          · exact hsj.elim
          · exact inv.hseen j pcj hj2 hsj
        · intro j pcj hj
          rcases getElem?_set_lookup _ _ _ _ _ hj with ⟨rfl, rfl⟩ | ⟨hne, hj2⟩
          · trivial
          · exact inv.hres j pcj hj2
        · intro h1 h2
          exfalso
          exact h2 i _ _ (getElem?_set_self_of_some _ _ _ _ hpc)
      | nil =>
        obtain ⟨hmn, hm2, k, hdrop, hfiles⟩ := inv.hwrite i [] m2 hpc
        subst hm2
        have howni : c.owner = some i := inv.howner i _ hpc trivial
        have hfull : c.fs.files = (resultWrites v).reverse := by
          have hlen : (resultWrites v).length ≤ k := List.drop_eq_nil_iff.mp hdrop.symm
          rw [hfiles, List.take_of_length_le hlen]
        constructor
        · exact inv.hlock
        · intro j pcj hj hold
          rcases getElem?_set_lookup _ _ _ _ _ hj with ⟨rfl, rfl⟩ | ⟨hne, hj2⟩
          · exact howni
          · exact inv.howner j pcj hj2 hold
        · intro m3 hm3
          exact ⟨(Option.some_inj.mp hm3).symm, hfull⟩
        · intro j pend2 m3 hj
          rcases getElem?_set_lookup _ _ _ _ _ hj with ⟨rfl, hb⟩ | ⟨hne, hj2⟩
          · exact nomatch hb
          · have h3 := inv.howner j _ hj2 trivial
            rw [howni] at h3
            exact absurd (Option.some_inj.mp h3).symm hne
        · exact inv.hcount1
        · constructor
          · intro h0
            exfalso
            exact (inv.hcount0.mp h0).2 i _ hpc trivial
          · intro h
            exact nomatch h.1
        · intro j pcj hj hsj
          simp
        · intro j pcj hj
          rcases getElem?_set_lookup _ _ _ _ _ hj with ⟨rfl, rfl⟩ | ⟨hne, hj2⟩
          · rfl
          · exact inv.hres j pcj hj2
        · intro h1 h2
          exact nomatch h1
    | releasingHit r =>
      exact minv_release cfg v c inv i _ r hpc trivial
        (inv.hres i (.releasingHit r) hpc) (inv.hseen i _ hpc trivial)
    | releasingCommit r =>
      exact minv_release cfg v c inv i _ r hpc trivial
        (inv.hres i (.releasingCommit r) hpc) (inv.hseen i _ hpc trivial)

theorem initMC_get (n j : Nat) (pcj : PC) (hj : (initMC n).procs[j]? = some pcj) :
    pcj = .start := by
  simp only [initMC, List.getElem?_replicate] at hj
  split at hj
  · exact (Option.some_inj.mp hj).symm
  · exact nomatch hj

theorem minv_init (cfg : Config) (v : Obj) (n : Nat) : MInv cfg v (initMC n) := by
  constructor
  · rfl
  · intro j pcj hj hold
    rw [initMC_get n j pcj hj] at hold
    exact hold.elim
  · intro m hm
    exact nomatch hm
  · intro j pend m hj
    have := initMC_get n j _ hj
    exact nomatch this
  · exact Nat.zero_le 1
  · constructor
    · intro h0
      refine ⟨rfl, ?_⟩
      intro j pcj hj
      rw [initMC_get n j pcj hj]
      exact fun h => h.elim
    · intro h
      rfl
  · intro j pcj hj hsj
    rw [initMC_get n j pcj hj] at hsj
    exact hsj.elim
  · intro j pcj hj
    rw [initMC_get n j pcj hj]
    trivial
  · intro h1 h2
    rfl

theorem minv_run (cfg : Config) (v : Obj) (hrefresh : cfg.refresh = false) :
    ∀ (sched : List Nat) (c : MConf), MInv cfg v c →
    MInv cfg v (runMC cfg v c sched) := by
  intro sched
  induction sched with
  | nil => intro c h; exact h
  | cons i rest ih =>
    intro c h
    exact ih _ (minv_step cfg v hrefresh c h i)

/-- C2: in every reachable state of any interleaving of any number of
    concurrent callers on an initially empty entry, a published manifest is
    the complete committed manifest, every leaf file it references is fully
    written (the entry holds exactly the committed leaf files), and decoding
    it succeeds with the computed value - i.e. the manifest becomes
    discoverable only after all leaf files are complete.  The manifest
    publication itself is one atomic step of the model, which is the
    atomicity the write-temp/flush/fsync/rename of _atomic_write_text
    provides, so no reader ever observes a partially written manifest. -/
theorem claim_C2_manifest_after_leaves (cfg : Config) (v : Obj)
    (hrefresh : cfg.refresh = false) (hkeys : dictKeysNodup v) (n : Nat)
    (sched : List Nat) (m : Manifest)
    (hm : (runMC cfg v (initMC n) sched).fs.manifest = some m) :
    m = manifestOf v cfg.write_checksums ∧
    (runMC cfg v (initMC n) sched).fs.files = (resultWrites v).reverse ∧
    load_result (runMC cfg v (initMC n) sched).fs.files cfg.basePath m
      cfg.verify_checksums cfg.strict_integrity = .ok v := by
  have inv := minv_run cfg v hrefresh sched (initMC n) (minv_init cfg v n)
  obtain ⟨h1, h2⟩ := inv.hman m hm
  subst h1
  refine ⟨rfl, h2, ?_⟩
  have hld := load_of_committed v [] cfg.basePath cfg.write_checksums
    cfg.verify_checksums cfg.strict_integrity
  rw [List.append_nil] at hld
  rw [h2]
  exact hld

/-- Witness for C2: one process commits None through the full step sequence
    and the published manifest decodes back. -/
theorem claim_C2_manifest_after_leaves_witness :
    ((runMC (defaultCfg "w") Obj.pyNone (initMC 1) [0, 0, 0, 0, 0, 0]).fs.manifest =
      some (manifestOf Obj.pyNone true)) ∧
    load_result (runMC (defaultCfg "w") Obj.pyNone (initMC 1) [0, 0, 0, 0, 0, 0]).fs.files
      "w" (manifestOf Obj.pyNone true) true true = .ok Obj.pyNone := by
  refine ⟨by rfl, ?_⟩
  exact (claim_C2_manifest_after_leaves (defaultCfg "w") Obj.pyNone rfl trivial 1
    [0, 0, 0, 0, 0, 0] (manifestOf Obj.pyNone true) (by rfl)).2.2

/-- C3: for any interleaving of N concurrent calls for the same fingerprint
    on an initially empty entry in which every process finishes, the wrapped
    computation executed exactly once and every caller returned the same
    value v - the winner its computed result, the others the decoded
    committed result, collapsed by the mandatory double check under the
    lock. -/
theorem claim_C3_single_writer (cfg : Config) (v : Obj)
    (hrefresh : cfg.refresh = false) (hkeys : dictKeysNodup v) (n : Nat)
    (hn : 0 < n) (sched : List Nat)
    (hdone : ∀ i < n, ∃ r, (runMC cfg v (initMC n) sched).procs[i]? = some (.done r)) :
    (runMC cfg v (initMC n) sched).computeCount = 1 ∧
    ∀ i < n, (runMC cfg v (initMC n) sched).procs[i]? = some (.done v) := by
  have inv := minv_run cfg v hrefresh sched (initMC n) (minv_init cfg v n)
  constructor
  · obtain ⟨r0, hr0⟩ := hdone 0 hn
    have hms : (runMC cfg v (initMC n) sched).fs.manifest.isSome :=
      inv.hseen 0 _ hr0 trivial
    have hle := inv.hcount1
    have hne0 : (runMC cfg v (initMC n) sched).computeCount ≠ 0 := by
      intro h0
      obtain ⟨hm0, -⟩ := inv.hcount0.mp h0
      rw [hm0] at hms
      exact nomatch hms
    omega
  · intro i hi
    obtain ⟨r, hr⟩ := hdone i hi
    have hrv : r = v := inv.hres i _ hr
    rw [hrv] at hr
    exact hr

/-- Witness for C3: two processes, the second arriving after the first has
    committed; one execution, both done with the same value. -/
theorem claim_C3_single_writer_witness :
    (runMC (defaultCfg "w") Obj.pyNone (initMC 2) [0, 0, 0, 0, 0, 0, 1]).computeCount = 1 ∧
    (runMC (defaultCfg "w") Obj.pyNone (initMC 2)
      [0, 0, 0, 0, 0, 0, 1]).procs[0]? = some (.done Obj.pyNone) := by
  have h := claim_C3_single_writer (defaultCfg "w") Obj.pyNone rfl trivial 2
    (by norm_num) [0, 0, 0, 0, 0, 0, 1] (by
      intro i hi
      interval_cases i
      · exact ⟨Obj.pyNone, by rfl⟩
      · exact ⟨Obj.pyNone, by rfl⟩)
  exact ⟨h.1, h.2 0 (by norm_num)⟩
